import Mathlib

/-!
# go-getting-started: route registration, listener start and JSON response encoding

A shallow embedding of

* `controllers.RegisterControllers` and `controllers.encodeResponseAsJSON`
  (`go-getting-started/controllers/front.go`),
* `main` (`go-getting-started/main.go`),

together with the parts of the Go standard library that these three functions call and
that decide what they do: `net/http` (`ServeMux.Handle`, `ServeMux.Handler`,
`ServeMux.ServeHTTP`, `ListenAndServe`), `path.Clean`, `unicode/utf8`
(`DecodeRuneInString`) and `encoding/json` (`Encoder.Encode`), as they are up to Go 1.21.
The user controller that `newUserController` builds is a parameter `uc`; the code hands
it to `http.Handle` by value (`*uc`), which `RegisterControllersByValue` makes explicit.

To read the encoder's output back there is a JSON parser after RFC 8259.

Go strings are byte sequences; a byte is a natural number below 256. The definitions
come first, the theorems after them.
-/

set_option autoImplicit false

namespace GoCore

/-! ## Go strings -/

/-- A Go string: its sequence of bytes. -/
abbrev GoString := List Nat

/-- The bytes of a Go string literal written with ASCII characters. -/
def lit (s : String) : GoString := s.toList.map Char.toNat

/-- Go `strings.HasPrefix(s, p)`. -/
def HasPrefix (s p : GoString) : Bool := p.isPrefixOf s

/-! ## net/http: the request multiplexer -/

section Mux

variable {H : Type}

/-- Go `http.muxEntry`: a handler and the pattern it was registered under. -/
structure muxEntry (H : Type) where
  h : H
  pattern : GoString

/-- Go `http.ServeMux`. The map `m` is kept as an association list with at most one
entry per key (see `mapSet`); `es` holds the entries whose pattern ends in `/`,
longest pattern first; `hosts` records whether some pattern starts with a host name. -/
structure ServeMux (H : Type) where
  m : List (GoString × muxEntry H)
  es : List (muxEntry H)
  hosts : Bool

/-- The zero `ServeMux`: no bindings. -/
def ServeMux.empty : ServeMux H := { m := [], es := [], hosts := false }

/-- Map read `m[k]`. -/
def mapGet (m : List (GoString × muxEntry H)) (k : GoString) : Option (muxEntry H) :=
  match m with
  | [] => none
  | (k', e) :: rest => if k' = k then some e else mapGet rest k

/-- Map write `m[k] = e`: any earlier entry for `k` is replaced. -/
def mapSet (m : List (GoString × muxEntry H)) (k : GoString) (e : muxEntry H) :
    List (GoString × muxEntry H) :=
  m.filter (fun kv => decide (kv.1 ≠ k)) ++ [(k, e)]

/-- The ways a Go call in this program can panic. -/
inductive Panic where
  /-- Go `panic("http: invalid pattern")`. -/
  | invalidPattern
  /-- Go `panic("http: multiple registrations for " + pattern)`. -/
  | multipleRegistrations (pattern : GoString)
  deriving DecidableEq, Repr

/-- Go `sort.Search(n, f)`: binary search for the least index in `[0, n)` at which `f`
holds, `n` if there is none. `fuel` bounds the iterations of the loop `for i < j`. -/
def sortSearchLoop (f : Nat → Bool) : Nat → Nat → Nat → Nat
  | 0, i, _ => i
  | fuel + 1, i, j =>
    if i < j then
      let h := (i + j) / 2
      if !f h then sortSearchLoop f fuel (h + 1) j else sortSearchLoop f fuel i h
    else i

/-- Go `sort.Search`. The interval `[i, j)` halves at every step, so `n + 1` iterations
are enough. -/
def sortSearch (n : Nat) (f : Nat → Bool) : Nat := sortSearchLoop f (n + 1) 0 n

/-- Go `http.appendSorted`: insert `e` into `es`, kept sorted from longest to shortest
pattern. -/
def appendSorted (es : List (muxEntry H)) (e : muxEntry H) : List (muxEntry H) :=
  let n := es.length
  let i := sortSearch n (fun i =>
    match es.get? i with
    | some x => decide (x.pattern.length < e.pattern.length)
    | none => false)
  if i = n then es ++ [e] else es.take i ++ e :: es.drop i

/-- Go `(*ServeMux).Handle(pattern, handler)`. The handler is a value of `H`, hence never
the nil interface, so the `http: nil handler` panic has no counterpart. -/
def ServeMux.Handle (mux : ServeMux H) (pattern : GoString) (handler : H) :
    Except Panic (ServeMux H) :=
  if pattern = [] then .error Panic.invalidPattern
  else if (mapGet mux.m pattern).isSome then .error (Panic.multipleRegistrations pattern)
  else
    let e : muxEntry H := { h := handler, pattern := pattern }
    .ok { m := mapSet mux.m pattern e
          es := if pattern.getLast? = some 47 then appendSorted mux.es e else mux.es
          hosts := if pattern.head? ≠ some 47 then true else mux.hosts }

/-- Go `(*ServeMux).match(path)`: an exact entry first, otherwise the longest pattern
ending in `/` that is a prefix of the path. `none` is the nil handler. -/
def ServeMux.match (mux : ServeMux H) (path : GoString) : Option (H × GoString) :=
  match mapGet mux.m path with
  | some v => some (v.h, v.pattern)
  | none =>
    match mux.es.find? (fun e => HasPrefix path e.pattern) with
    | some e => some (e.h, e.pattern)
    | none => none

end Mux

/-! ## path.Clean and the path canonicalisation of net/http -/

/-- The `..` case of `path.Clean` when it can backtrack: starting from `w` (already
decremented once), step back while `w > dotdot` and `out[w]` is not `/`. -/
def backtrack (out : List Nat) (dotdot : Nat) : Nat → Nat
  | 0 => 0
  | w + 1 => if dotdot < w + 1 ∧ out.get? (w + 1) ≠ some 47 then backtrack out dotdot w else w + 1

/-- The main loop of Go `path.Clean`: `r` is the index of the next byte of `path` to
read, `out` the bytes written so far (`out.w` is its length), `dotdot` the index in `out`
where `..` must stop. Every iteration advances `r`, so `fuel = len(path) + 1` is enough. -/
def cleanLoop (path : GoString) (rooted : Bool) : Nat → Nat → List Nat → Nat → List Nat
  | 0, _, out, _ => out
  | fuel + 1, r, out, dotdot =>
    let n := path.length
    if r < n then
      if path.get? r = some 47 then
        -- empty path element
        cleanLoop path rooted fuel (r + 1) out dotdot
      else if path.get? r = some 46 ∧ (r + 1 = n ∨ path.get? (r + 1) = some 47) then
        -- . element
        cleanLoop path rooted fuel (r + 1) out dotdot
      else if path.get? r = some 46 ∧ path.get? (r + 1) = some 46 ∧
          (r + 2 = n ∨ path.get? (r + 2) = some 47) then
        -- .. element: remove to last /
        if dotdot < out.length then
          cleanLoop path rooted fuel (r + 2) (out.take (backtrack out dotdot (out.length - 1))) dotdot
        else if !rooted then
          let out1 := (if 0 < out.length then out ++ [47] else out) ++ [46, 46]
          cleanLoop path rooted fuel (r + 2) out1 out1.length
        else
          cleanLoop path rooted fuel (r + 2) out dotdot
      else
        -- real path element: add slash if needed, then copy the element
        let out1 :=
          if (rooted ∧ out.length ≠ 1) ∨ (!rooted ∧ out.length ≠ 0) then out ++ [47] else out
        let elem := (path.drop r).takeWhile (fun b => decide (b ≠ 47))
        cleanLoop path rooted fuel (r + elem.length) (out1 ++ elem) dotdot
    else out

/-- Go `path.Clean`. -/
def pathClean (path : GoString) : GoString :=
  if path = [] then [46]
  else
    let rooted := decide (path.head? = some 47)
    let out := cleanLoop path rooted (path.length + 1) (if rooted then 1 else 0)
      (if rooted then [47] else []) (if rooted then 1 else 0)
    if out.length = 0 then [46] else out

/-- Go `http.cleanPath`: the canonical path for `p`, without `.` and `..` elements and
without repeated slashes; a trailing slash is kept. -/
def cleanPath (p : GoString) : GoString :=
  if p = [] then [47]
  else
    let p := if p.head? ≠ some 47 then 47 :: p else p
    let np := pathClean p
    if p.getLast? = some 47 ∧ np ≠ [47] then
      if p.length = np.length + 1 ∧ HasPrefix p np then p else np ++ [47]
    else np

/-! ## net/http: dispatching a request -/

section Dispatch

variable {H : Type}

/-- The fields of a Go `*http.Request` that the multiplexer reads. -/
structure Request where
  /-- Field `r.Method`. -/
  Method : GoString
  /-- Field `r.Host`. -/
  Host : GoString
  /-- The value of `stripHostPort(r.Host)`: `r.Host` without its port. -/
  HostNoPort : GoString
  /-- Field `r.URL.Host`. -/
  URLHost : GoString
  /-- Field `r.URL.Path`. -/
  Path : GoString
  /-- Field `r.URL.RawQuery`. -/
  RawQuery : GoString
  /-- Field `r.RequestURI`. -/
  RequestURI : GoString

/-- The handler that `(*ServeMux).Handler` returns, with its pattern. -/
inductive Selected (H : Type) where
  /-- A handler taken from the table, and the pattern it is bound to. -/
  | registered (h : H) (pattern : GoString)
  /-- Go `NotFoundHandler()`: replies 404 "page not found". -/
  | notFound
  /-- Go `RedirectHandler(u.String(), StatusMovedPermanently)` for
  `u = &url.URL{Path: path, RawQuery: rawQuery}`. -/
  | redirect (path rawQuery : GoString) (pattern : GoString)
  deriving DecidableEq, Repr

/-- Go `(*ServeMux).handler(host, path)`: the table lookup behind `Handler`. -/
def ServeMux.handler (mux : ServeMux H) (host path : GoString) : Selected H :=
  let r1 := if mux.hosts then mux.match (host ++ path) else none
  let r2 := match r1 with
    | some x => some x
    | none => mux.match path
  match r2 with
  | some (h, pattern) => .registered h pattern
  | none => .notFound

/-- Go `(*ServeMux).shouldRedirectRLocked(host, path)`: whether `path` is unregistered
while `path + "/"` is registered. -/
def ServeMux.shouldRedirectRLocked (mux : ServeMux H) (host path : GoString) : Bool :=
  let p := [path, host ++ path]
  if p.any (fun c => (mapGet mux.m c).isSome) then false
  else if path.length = 0 then false
  else
    match p.find? (fun c => (mapGet mux.m (c ++ [47])).isSome) with
    | some _ => decide (path.getLast? ≠ some 47)
    | none => false

/-- Go `(*ServeMux).redirectToPathSlash(host, path, u)`: `some (path + "/")` when the
request is to be redirected to the pattern with the trailing slash. -/
def ServeMux.redirectToPathSlash (mux : ServeMux H) (host path : GoString) :
    Option GoString :=
  if mux.shouldRedirectRLocked host path then some (path ++ [47]) else none

/-- Go `(*ServeMux).Handler(r)`. -/
def ServeMux.Handler (mux : ServeMux H) (r : Request) : Selected H :=
  if r.Method = lit "CONNECT" then
    -- CONNECT requests are not canonicalized.
    match mux.redirectToPathSlash r.URLHost r.Path with
    | some p => .redirect p r.RawQuery p
    | none => mux.handler r.Host r.Path
  else
    let host := r.HostNoPort
    let path := cleanPath r.Path
    match mux.redirectToPathSlash host path with
    | some p => .redirect p r.RawQuery p
    | none =>
      if path ≠ r.Path then
        let pattern := match mux.handler host path with
          | .registered _ pat => pat
          | .notFound => []
          | .redirect _ _ pat => pat
        .redirect path r.RawQuery pattern
      else mux.handler host r.Path

/-- What `(*ServeMux).ServeHTTP` does with a request. -/
inductive Dispatch (H : Type) where
  /-- Case `RequestURI == "*"`: the multiplexer itself replies 400 and calls no handler. -/
  | badRequest
  /-- Call `h.ServeHTTP(w, r)` for the selected handler `h`, called once. -/
  | serve (h : Selected H)
  deriving DecidableEq, Repr

/-- Go `(*ServeMux).ServeHTTP(w, r)`. -/
def ServeMux.ServeHTTP (mux : ServeMux H) (r : Request) : Dispatch H :=
  if r.RequestURI = lit "*" then .badRequest else .serve (mux.Handler r)

/-- The registered handlers whose `ServeHTTP` a dispatch calls, in order. -/
def Dispatch.invoked : Dispatch H → List H
  | .serve (.registered h _) => [h]
  | _ => []

/-- The status code that the multiplexer or one of its own handlers replies with; `none`
when a registered handler writes the response. -/
def Dispatch.status : Dispatch H → Option Nat
  | .badRequest => some 400
  | .serve .notFound => some 404
  | .serve (.redirect _ _ _) => some 301
  | .serve (.registered _ _) => none

/-- A `GET` request for `path` as the server of `main` receives it on `localhost:3000`. -/
def Request.get (path : GoString) : Request :=
  { Method := lit "GET", Host := lit "localhost:3000", HostNoPort := lit "localhost",
    URLHost := [], Path := path, RawQuery := [], RequestURI := path }

end Dispatch

/-! ## The process: the default multiplexer and the calls made on net/http -/

section Program

variable {H : Type}

/-- A call of the program into `net/http`. -/
inductive Call (H : Type) where
  /-- Go `http.Handle(pattern, handler)`. -/
  | Handle (pattern : GoString) (handler : H)
  /-- Go `http.ListenAndServe(addr, handler)`; a nil handler is `none`. -/
  | ListenAndServe (addr : GoString) (handler : Option H)
  deriving DecidableEq, Repr

/-- The state of the process that the program touches. -/
structure Process (H : Type) where
  /-- Go `http.DefaultServeMux`. -/
  DefaultServeMux : ServeMux H
  /-- The calls into `net/http` made so far, oldest first. -/
  calls : List (Call H)
  /-- What the program has written to standard error. -/
  stderr : List GoString

/-- The process at start: an empty default multiplexer, nothing called or written. -/
def Process.start : Process H := { DefaultServeMux := ServeMux.empty, calls := [], stderr := [] }

/-- How a Go function call ends. -/
inductive Outcome (α : Type) where
  /-- It returns normally. -/
  | returned (a : α)
  /-- It panics. -/
  | panicked (p : Panic)
  /-- It never returns: the goroutine stays in a blocking call. -/
  | blocked
  deriving DecidableEq, Repr

/-- A Go function with effects on the process. -/
def Go (H α : Type) := Process H → Outcome α × Process H

/-- Sequencing of Go statements: a panic or a call that never returns ends the
function. -/
def Go.bind {α β : Type} (x : Go H α) (f : α → Go H β) : Go H β := fun s =>
  match x s with
  | (.returned a, s1) => f a s1
  | (.panicked p, s1) => (.panicked p, s1)
  | (.blocked, s1) => (.blocked, s1)

/-- A Go function that returns `a` without effect. -/
def Go.ret {α : Type} (a : α) : Go H α := fun s => (.returned a, s)

/-- Go `http.Handle(pattern, handler)`: `DefaultServeMux.Handle(pattern, handler)`. -/
def Handle (pattern : GoString) (handler : H) : Go H Unit := fun s =>
  let s1 := { s with calls := s.calls ++ [Call.Handle pattern handler] }
  match s.DefaultServeMux.Handle pattern handler with
  | .ok mux => (.returned (), { s1 with DefaultServeMux := mux })
  | .error p => (.panicked p, s1)

/-- What the environment lets the listener do. -/
inductive ListenOutcome where
  /-- The listener is bound and the server accepts connections for ever. -/
  | serving
  /-- The call of `ListenAndServe` returns the (non-nil) error `err`, for instance because the
  address is already in use. -/
  | failed (err : GoString)
  deriving DecidableEq, Repr

/-- Go `http.ListenAndServe(addr, handler)`, in an environment where starting the
listener has outcome `env`. It returns the error, or does not return. -/
def ListenAndServe (env : ListenOutcome) (addr : GoString) (handler : Option H) :
    Go H GoString := fun s =>
  let s1 := { s with calls := s.calls ++ [Call.ListenAndServe addr handler] }
  match env with
  | .serving => (.blocked, s1)
  | .failed err => (.returned err, s1)

/-- Function `controllers.RegisterControllers` (front.go). `uc` is the value `*uc` of the
controller that `newUserController()` returns. -/
def RegisterControllers (uc : H) : Go H Unit :=
  Go.bind (Handle (lit "/users") uc) fun _ =>
  Handle (lit "/users/") uc

/-- The function `main` (main.go). The error that `http.ListenAndServe(":3000", nil)`
returns is not bound to anything. -/
def main (env : ListenOutcome) (uc : H) : Go H Unit :=
  Go.bind (RegisterControllers uc) fun _ =>
  Go.bind (ListenAndServe env (lit ":3000") none) fun _ =>
  Go.ret ()

/-- The exit status of a process whose `main` ends with the given outcome: 0 when `main`
returns, 2 when it panics; a `main` that is blocked has not exited. -/
def exitStatus {α : Type} : Outcome α → Option Nat
  | .returned _ => some 0
  | .panicked _ => some 2
  | .blocked => none

/-- The route table built by `RegisterControllers` on a fresh process. -/
def routeTable (uc : H) : ServeMux H := (RegisterControllers uc Process.start).2.DefaultServeMux

end Program

/-! ## The handler argument `*uc`: passed by value -/

section ByValue

variable {H C : Type}

/-- An `http.Handler` interface value made from a struct value. Go converts the operand
`*uc` to the interface type at each call that takes it, and the interface value holds its
own copy of the struct. The field `copy` numbers these conversions in the order in which
the function makes them: two interface values are one instance only when `copy` agrees,
whatever their `value`. -/
structure Copied (C : Type) where
  value : C
  copy : Nat
  deriving DecidableEq, Repr

/-- Function `controllers.RegisterControllers` (front.go) with its two evaluations of `*uc`
told apart: `http.Handle("/users", *uc)` registers copy 0 of the controller that
`newUserController()` returned, `http.Handle("/users/", *uc)` registers copy 1 of the same
controller. Forgetting the numbers gives `RegisterControllers`. -/
def RegisterControllersByValue (uc : C) : Go (Copied C) Unit :=
  Go.bind (Handle (lit "/users") ⟨uc, 0⟩) fun _ =>
  Handle (lit "/users/") ⟨uc, 1⟩

/-- The route table built by `RegisterControllersByValue` on a fresh process. -/
def copiesTable (uc : C) : ServeMux (Copied C) :=
  (RegisterControllersByValue uc Process.start).2.DefaultServeMux

/-- An entry with its handler replaced by `f` of it. -/
def muxEntry.map (f : H → C) (e : muxEntry H) : muxEntry C := { h := f e.h, pattern := e.pattern }

/-- A route table with every handler replaced by `f` of it. -/
def ServeMux.map (f : H → C) (mux : ServeMux H) : ServeMux C :=
  { m := mux.m.map (fun kv => (kv.1, kv.2.map f))
    es := mux.es.map (muxEntry.map f)
    hosts := mux.hosts }

/-- The table with `/users` bound to `h1` and `/users/` bound to `h2`, written out. -/
def usersTable (h1 h2 : H) : ServeMux H :=
  { m := [(lit "/users", ⟨h1, lit "/users"⟩), (lit "/users/", ⟨h2, lit "/users/"⟩)]
    es := [⟨h2, lit "/users/"⟩]
    hosts := false }

end ByValue

/-! ## io.Writer and a byte sink -/

/-- What an encoding or a write can fail with. -/
inductive GoError where
  /-- Go `json.UnsupportedTypeError` or `json.UnsupportedValueError`: the value cannot be
  represented in JSON. -/
  | Unsupported
  /-- Go `io.ErrShortWrite`, or whatever error makes a writer stop early. -/
  | WriteError
  deriving DecidableEq, Repr

/-- Go `io.Writer`: `Write(p)` gives the writer after the call, the number of bytes
written and the error. -/
class Writer (W : Type) where
  Write : W → List Nat → W × Nat × Option GoError

/-- A byte sink that keeps what is written to it: `contents` are the bytes received so
far, `room` the number of further bytes it accepts before its `Write` fails (`none`:
no limit). -/
structure Sink where
  contents : List Nat
  room : Option Nat
  deriving DecidableEq, Repr

/-- The empty sink without limit. -/
def Sink.empty : Sink := { contents := [], room := none }

/-- The method `Write` of a sink: appends `p`, or as much of `p` as there is room for, in which
case it reports the short write. -/
def Sink.Write (w : Sink) (p : List Nat) : Sink × Nat × Option GoError :=
  match w.room with
  | none => ({ w with contents := w.contents ++ p }, p.length, none)
  | some k =>
    if p.length ≤ k then
      ({ contents := w.contents ++ p, room := some (k - p.length) }, p.length, none)
    else
      ({ contents := w.contents ++ p.take k, room := some 0 }, k, some GoError.WriteError)

instance : Writer Sink := ⟨Sink.Write⟩

/-! ## unicode/utf8 -/

/-- Go `utf8.RuneError`, U+FFFD. -/
def RuneError : Nat := 0xFFFD

/-- The tables `first` and `acceptRanges` of `unicode/utf8` for a lead byte `s0 ≥ 0x80`:
the size of the encoding and the range `[lo, hi]` accepted for the second byte; `none`
for an invalid lead byte. -/
def first (s0 : Nat) : Option (Nat × Nat × Nat) :=
  if 0xC2 ≤ s0 ∧ s0 ≤ 0xDF then some (2, 0x80, 0xBF)
  else if s0 = 0xE0 then some (3, 0xA0, 0xBF)
  else if 0xE1 ≤ s0 ∧ s0 ≤ 0xEC then some (3, 0x80, 0xBF)
  else if s0 = 0xED then some (3, 0x80, 0x9F)
  else if 0xEE ≤ s0 ∧ s0 ≤ 0xEF then some (3, 0x80, 0xBF)
  else if s0 = 0xF0 then some (4, 0x90, 0xBF)
  else if 0xF1 ≤ s0 ∧ s0 ≤ 0xF3 then some (4, 0x80, 0xBF)
  else if s0 = 0xF4 then some (4, 0x80, 0x8F)
  else none

/-- Go `utf8.DecodeRuneInString(s)`: the first rune of `s` and its width in bytes;
`(RuneError, 1)` when the encoding is invalid, `(RuneError, 0)` when `s` is empty. -/
def DecodeRuneInString (s : GoString) : Nat × Nat :=
  match s with
  | [] => (RuneError, 0)
  | s0 :: t =>
    if s0 < 0x80 then (s0, 1)
    else
      match first s0 with
      | none => (RuneError, 1)
      | some (sz, lo, hi) =>
        if s.length < sz then (RuneError, 1)
        else
          match t with
          | [] => (RuneError, 1)
          | s1 :: t1 =>
            if s1 < lo ∨ hi < s1 then (RuneError, 1)
            else if sz ≤ 2 then ((s0 % 32) * 64 + s1 % 64, 2)
            else
              match t1 with
              | [] => (RuneError, 1)
              | s2 :: t2 =>
                if s2 < 0x80 ∨ 0xBF < s2 then (RuneError, 1)
                else if sz ≤ 3 then ((s0 % 16) * 4096 + (s1 % 64) * 64 + s2 % 64, 3)
                else
                  match t2 with
                  | [] => (RuneError, 1)
                  | s3 :: _ =>
                    if s3 < 0x80 ∨ 0xBF < s3 then (RuneError, 1)
                    else ((s0 % 8) * 262144 + (s1 % 64) * 4096 + (s2 % 64) * 64 + s3 % 64, 4)

/-! ## strconv -/

/-- The decimal digits of `n`, most significant first, put in front of `acc`; `fuel`
bounds the number of digits. -/
def appendDigits : Nat → Nat → List Nat → List Nat
  | 0, _, acc => acc
  | fuel + 1, n, acc =>
    if n < 10 then (48 + n) :: acc
    else appendDigits fuel (n / 10) ((48 + n % 10) :: acc)

/-- Go `strconv.AppendUint(nil, n, 10)`. A number has at most `n + 1` digits. -/
def formatUint (n : Nat) : GoString := appendDigits (n + 1) n []

/-- Go `strconv.AppendInt(nil, i, 10)`. -/
def formatInt (i : Int) : GoString :=
  if i < 0 then 45 :: formatUint i.natAbs else formatUint i.natAbs

/-! ## encoding/json: the encoder -/

/-- A Go value handed to the encoder, by what `encoding/json` does with it. -/
inductive Value where
  /-- A nil interface, pointer, map or slice. -/
  | null
  /-- A boolean. -/
  | bool (b : Bool)
  /-- A value of an integer kind. -/
  | int (i : Int)
  /-- A string. -/
  | string (s : GoString)
  /-- A non-nil slice, or an array. -/
  | array (xs : List Value)
  /-- A non-nil map with string keys: its entries. -/
  | object (ms : List (GoString × Value))
  /-- A value that JSON cannot represent: a channel, function or complex number
  (`json.UnsupportedTypeError`), or a pointer, map or slice that contains itself
  (`json.UnsupportedValueError`, "encountered a cycle"). -/
  | unsupported
  deriving Repr

/-- The table `safeSet` of `encoding/json`, for `b < 0x80`: the ASCII bytes that need no
escaping in a JSON string. -/
def safeSet (b : Nat) : Bool := decide (0x20 ≤ b ∧ b ≠ 34 ∧ b ≠ 92)

/-- The table `htmlSafeSet` of `encoding/json`, for `b < 0x80`: `safeSet` without `&`,
`<` and `>`. -/
def htmlSafeSet (b : Nat) : Bool := decide (0x20 ≤ b ∧ b ≠ 34 ∧ b ≠ 92 ∧ b ≠ 38 ∧ b ≠ 60 ∧ b ≠ 62)

/-- The digit `hex[i]` of `"0123456789abcdef"`. -/
def hex (i : Nat) : Nat := if i < 10 then 48 + i else 87 + i

/-- The escape sequence `appendString` writes for an ASCII byte that is not safe: a
backslash before `\` and `"`, the short forms for line feed, carriage return and tab, and
`\u00XX` for the other control characters and for `<`, `>` and `&`. -/
def escapeByte (b : Nat) : GoString :=
  if b = 92 ∨ b = 34 then [92, b]
  else if b = 10 then [92, 110]
  else if b = 13 then [92, 114]
  else if b = 9 then [92, 116]
  else [92, 117, 48, 48, hex (b / 16), hex (b % 16)]

/-- The loop of `appendString` over the bytes of `src` that are still to be encoded,
one rune at a time. Every iteration consumes at least one byte, so `fuel = len(src)` is
enough. -/
def appendStringLoop (escapeHTML : Bool) : Nat → GoString → GoString
  | 0, _ => []
  | _ + 1, [] => []
  | fuel + 1, b :: rest =>
    if b < 0x80 then
      if htmlSafeSet b || (!escapeHTML && safeSet b) then
        b :: appendStringLoop escapeHTML fuel rest
      else
        escapeByte b ++ appendStringLoop escapeHTML fuel rest
    else
      let (c, size) := DecodeRuneInString (b :: rest)
      if c = RuneError ∧ size = 1 then
        [92, 117, 102, 102, 102, 100] ++ appendStringLoop escapeHTML fuel rest
      else if c = 0x2028 ∨ c = 0x2029 then
        [92, 117, 50, 48, 50, hex (c % 16)] ++
          appendStringLoop escapeHTML fuel ((b :: rest).drop size)
      else
        (b :: rest).take size ++ appendStringLoop escapeHTML fuel ((b :: rest).drop size)

/-- Go `appendString(dst, src, escapeHTML)` of `encoding/json` on an empty `dst`: `src`
as a JSON string literal. -/
def appendString (src : GoString) (escapeHTML : Bool) : GoString :=
  34 :: (appendStringLoop escapeHTML src.length src ++ [34])

/-- Go string comparison `a < b`: bytewise lexicographic. -/
def strLess : GoString → GoString → Bool
  | [], [] => false
  | [], _ :: _ => true
  | _ :: _, [] => false
  | a :: as, b :: bs => if a < b then true else if b < a then false else strLess as bs

/-- Insertion of a map entry into entries sorted by key. -/
def insertByKey (kv : GoString × GoString) : List (GoString × GoString) →
    List (GoString × GoString)
  | [] => [kv]
  | x :: xs => if strLess kv.1 x.1 then kv :: x :: xs else x :: insertByKey kv xs

/-- The entries of a map sorted by key, as `mapEncoder.encode` orders them. -/
def sortByKey : List (GoString × GoString) → List (GoString × GoString)
  | [] => []
  | kv :: rest => insertByKey kv (sortByKey rest)

/-- The members of a JSON object or array, separated by commas. -/
def joinComma : List GoString → GoString
  | [] => []
  | [x] => x
  | x :: y :: rest => x ++ 44 :: joinComma (y :: rest)

mutual
/-- The encoding of a value by `encoding/json` (`encodeState.reflectValue`): the JSON
text, or the error that stops the encoding. -/
def marshal (escapeHTML : Bool) : Value → Except GoError GoString
  | .null => .ok [110, 117, 108, 108]
  | .bool b => .ok (if b then [116, 114, 117, 101] else [102, 97, 108, 115, 101])
  | .int i => .ok (formatInt i)
  | .string s => .ok (appendString s escapeHTML)
  | .array xs =>
    match marshalElems escapeHTML xs with
    | .ok es => .ok (91 :: (joinComma es ++ [93]))
    | .error e => .error e
  | .object ms =>
    match marshalEntries escapeHTML ms with
    | .ok kvs =>
      .ok (123 :: (joinComma ((sortByKey kvs).map
        (fun kv => appendString kv.1 escapeHTML ++ 58 :: kv.2)) ++ [125]))
    | .error e => .error e
  | .unsupported => .error GoError.Unsupported
/-- The encodings of the elements of a slice. -/
def marshalElems (escapeHTML : Bool) : List Value → Except GoError (List GoString)
  | [] => .ok []
  | v :: vs =>
    match marshal escapeHTML v with
    | .ok b =>
      match marshalElems escapeHTML vs with
      | .ok bs => .ok (b :: bs)
      | .error e => .error e
    | .error e => .error e
/-- The keys of a map with the encodings of their values. -/
def marshalEntries (escapeHTML : Bool) :
    List (GoString × Value) → Except GoError (List (GoString × GoString))
  | [] => .ok []
  | (k, v) :: ms =>
    match marshal escapeHTML v with
    | .ok b =>
      match marshalEntries escapeHTML ms with
      | .ok bs => .ok ((k, b) :: bs)
      | .error e => .error e
    | .error e => .error e
end

/-- Go `json.Encoder`: the writer, the sticky error of an earlier failed write, and the
`escapeHTML` option. -/
structure Encoder (W : Type) where
  w : W
  err : Option GoError
  escapeHTML : Bool

/-- Go `json.NewEncoder(w)`. -/
def NewEncoder {W : Type} (w : W) : Encoder W := { w := w, err := none, escapeHTML := true }

/-- Go `(*Encoder).Encode(v)`: writes the JSON encoding of `v` followed by a newline, in
one `Write`; nothing is written when the encoding fails. Gives the encoder after the call
and the error returned. -/
def Encoder.Encode {W : Type} [Writer W] (enc : Encoder W) (v : Value) :
    Encoder W × Option GoError :=
  match enc.err with
  | some e => (enc, some e)
  | none =>
    match marshal enc.escapeHTML v with
    | .error e => (enc, some e)
    | .ok e =>
      -- Terminate each value with a newline.
      let b := e ++ [10]
      match Writer.Write enc.w b with
      | (w1, _, some err) => ({ enc with w := w1, err := some err }, some err)
      | (w1, _, none) => ({ enc with w := w1 }, none)

/-- Function `controllers.encodeResponseAsJSON` (front.go): the function has no result, and the
error that `enc.Encode(data)` returns is not bound to anything. What is left is the
writer after the call. -/
def encodeResponseAsJSON {W : Type} [Writer W] (data : Value) (w : W) : Unit × W :=
  let enc := NewEncoder w
  let r := enc.Encode data
  ((), r.1.w)

mutual
/-- Whether a value has a member that JSON cannot represent, at any depth. -/
def Value.hasUnsupported : Value → Bool
  | .unsupported => true
  | .array xs => Value.anyUnsupported xs
  | .object ms => Value.anyEntryUnsupported ms
  | _ => false
/-- Whether some element of a slice has such a member. -/
def Value.anyUnsupported : List Value → Bool
  | [] => false
  | v :: vs => v.hasUnsupported || Value.anyUnsupported vs
/-- Whether the value of some map entry has such a member. -/
def Value.anyEntryUnsupported : List (GoString × Value) → Bool
  | [] => false
  | (_, v) :: ms => v.hasUnsupported || Value.anyEntryUnsupported ms
end

/-- The payload `map[string]string{"status": "ok"}`. -/
def statusOk : Value := .object [(lit "status", .string (lit "ok"))]

/-! ## unicode/utf8: validity and encoding of a rune -/

/-- Scan of `s` rune by rune with `DecodeRuneInString`: `false` as soon as a byte is
met that is not part of a valid encoding. -/
def validLoop : Nat → GoString → Bool
  | 0, s => decide (s = [])
  | _ + 1, [] => true
  | fuel + 1, b :: rest =>
    if b < 0x80 then validLoop fuel rest
    else
      let (c, size) := DecodeRuneInString (b :: rest)
      if c = RuneError ∧ size = 1 then false
      else validLoop fuel ((b :: rest).drop size)

/-- Go `utf8.ValidString(s)`: whether `s` consists entirely of valid UTF-8-encoded
runes. -/
def ValidString (s : GoString) : Bool := validLoop s.length s

/-- Go `utf8.AppendRune(nil, r)`: the UTF-8 encoding of the rune `r`; surrogates and
values above U+10FFFF are encoded as U+FFFD. -/
def encodeRune (r : Nat) : GoString :=
  if r < 0x80 then [r]
  else if r < 0x800 then [0xC0 + r / 64, 0x80 + r % 64]
  else if (0xD800 ≤ r ∧ r ≤ 0xDFFF) ∨ 0x10FFFF < r then [0xEF, 0xBF, 0xBD]
  else if r < 0x10000 then [0xE0 + r / 4096, 0x80 + (r / 64) % 64, 0x80 + r % 64]
  else [0xF0 + r / 262144, 0x80 + (r / 4096) % 64, 0x80 + (r / 64) % 64, 0x80 + r % 64]

/-! ## A JSON parser (RFC 8259)

The decoder that the encoder's output is read back with. It accepts the JSON grammar of
RFC 8259 with these limits: a number must be an integer (no `Value` stands for a number
with a fraction or an exponent), and bytes of a string that are not escaped are taken
as they are. -/

/-- JSON whitespace: space, tab, line feed, carriage return. -/
def isSpace (b : Nat) : Bool := b = 32 || b = 9 || b = 10 || b = 13

/-- The input without its leading whitespace. -/
def skipSpace : GoString → GoString
  | [] => []
  | b :: rest => if isSpace b then skipSpace rest else b :: rest

/-- Whether `b` is a decimal digit. -/
def isDigit (b : Nat) : Bool := decide (48 ≤ b ∧ b ≤ 57)

/-- The value of a hexadecimal digit. -/
def hexVal (b : Nat) : Option Nat :=
  if 48 ≤ b ∧ b ≤ 57 then some (b - 48)
  else if 97 ≤ b ∧ b ≤ 102 then some (b - 87)
  else if 65 ≤ b ∧ b ≤ 70 then some (b - 55)
  else none

/-- The value of four hexadecimal digits. -/
def hex4 (a b c d : Nat) : Option Nat :=
  match hexVal a, hexVal b, hexVal c, hexVal d with
  | some x, some y, some z, some w => some (x * 4096 + y * 256 + z * 16 + w)
  | _, _, _, _ => none

/-- The escape `\uXXXX`, read after `\u`: the bytes it stands for and the rest of the
input. A high surrogate followed by an escaped low surrogate is one rune; a surrogate on
its own is U+FFFD. -/
def unescapeU (input : GoString) : Option (GoString × GoString) :=
  match input with
  | a :: b :: c :: d :: r1 =>
    match hex4 a b c d with
    | none => none
    | some cu =>
      if 0xD800 ≤ cu ∧ cu < 0xDC00 then
        match r1 with
        | 92 :: 117 :: e :: f :: g :: h :: r2 =>
          match hex4 e f g h with
          | some lo =>
            if 0xDC00 ≤ lo ∧ lo < 0xE000 then
              some (encodeRune (0x10000 + (cu - 0xD800) * 1024 + (lo - 0xDC00)), r2)
            else some (encodeRune RuneError, r1)
          | none => some (encodeRune RuneError, r1)
        | _ => some (encodeRune RuneError, r1)
      else some (encodeRune cu, r1)
  | _ => none

/-- An escape sequence, read after the backslash. -/
def unescape (input : GoString) : Option (GoString × GoString) :=
  match input with
  | [] => none
  | c :: r =>
    if c = 34 ∨ c = 92 ∨ c = 47 then some ([c], r)
    else if c = 98 then some ([8], r)
    else if c = 102 then some ([12], r)
    else if c = 110 then some ([10], r)
    else if c = 114 then some ([13], r)
    else if c = 116 then some ([9], r)
    else if c = 117 then unescapeU r
    else none

/-- One element of a string literal: an escape sequence or a byte that needs none.
Control characters must be escaped. -/
def stringElem (input : GoString) : Option (GoString × GoString) :=
  match input with
  | [] => none
  | b :: rest =>
    if b = 92 then unescape rest
    else if b < 0x20 ∨ b = 34 then none
    else some ([b], rest)

/-- The inside of a string literal up to and including the closing quote: the string and
the rest of the input. Every element consumes at least one byte. -/
def parseStringBody : Nat → GoString → Option (GoString × GoString)
  | 0, _ => none
  | _ + 1, [] => none
  | fuel + 1, b :: rest =>
    if b = 34 then some ([], rest)
    else
      match stringElem (b :: rest) with
      | none => none
      | some (bs, r) =>
        match parseStringBody fuel r with
        | none => none
        | some (s, r1) => some (bs ++ s, r1)

/-- A string literal, read after the opening quote. -/
def parseString (input : GoString) : Option (GoString × GoString) :=
  parseStringBody (input.length + 1) input

/-- The decimal digits at the head of the input, as a number continuing `acc`. -/
def parseDigits : GoString → Nat → Nat × GoString
  | [], acc => (acc, [])
  | b :: rest, acc =>
    if isDigit b then parseDigits rest (acc * 10 + (b - 48)) else (acc, b :: rest)

/-- An integer: an optional minus sign and digits without a superfluous leading zero. A
fraction or an exponent after the digits is rejected. -/
def parseNumber (input : GoString) : Option (Int × GoString) :=
  let neg := decide (input.head? = some 45)
  let r := if neg then input.tail else input
  match r with
  | [] => none
  | d :: r1 =>
    if !isDigit d then none
    else if d = 48 ∧ (r1.head?.map isDigit = some true) then none
    else
      let (n, rest) := parseDigits (d :: r1) 0
      if rest.head? = some 46 ∨ rest.head? = some 101 ∨ rest.head? = some 69 then none
      else some (if neg then - (n : Int) else (n : Int), rest)

mutual
/-- A JSON value at the head of the input (after optional whitespace), and the rest of
the input. `fuel` bounds the nesting and the number of members; the length of the input
is enough. -/
def parseValue : Nat → GoString → Option (Value × GoString)
  | 0, _ => none
  | fuel + 1, input =>
    match skipSpace input with
    | [] => none
    | b :: rest =>
      if b = 34 then
        match parseString rest with
        | some (s, r) => some (.string s, r)
        | none => none
      else if b = 91 then
        match skipSpace rest with
        | [] => none
        | c :: r =>
          if c = 93 then some (.array [], r)
          else
            match parseElems fuel (c :: r) with
            | some (vs, r1) => some (.array vs, r1)
            | none => none
      else if b = 123 then
        match skipSpace rest with
        | [] => none
        | c :: r =>
          if c = 125 then some (.object [], r)
          else
            match parseMembers fuel (c :: r) with
            | some (ms, r1) => some (.object ms, r1)
            | none => none
      else if HasPrefix (b :: rest) [110, 117, 108, 108] then some (.null, rest.drop 3)
      else if HasPrefix (b :: rest) [116, 114, 117, 101] then some (.bool true, rest.drop 3)
      else if HasPrefix (b :: rest) [102, 97, 108, 115, 101] then
        some (.bool false, rest.drop 4)
      else
        match parseNumber (b :: rest) with
        | some (i, r) => some (.int i, r)
        | none => none
/-- The elements of a non-empty array up to and including the closing bracket. -/
def parseElems : Nat → GoString → Option (List Value × GoString)
  | 0, _ => none
  | fuel + 1, input =>
    match parseValue fuel input with
    | none => none
    | some (v, rest) =>
      match skipSpace rest with
      | [] => none
      | c :: r =>
        if c = 44 then
          match parseElems fuel r with
          | some (vs, r1) => some (v :: vs, r1)
          | none => none
        else if c = 93 then some ([v], r)
        else none
/-- The members of a non-empty object up to and including the closing brace. -/
def parseMembers : Nat → GoString → Option (List (GoString × Value) × GoString)
  | 0, _ => none
  | fuel + 1, input =>
    match skipSpace input with
    | [] => none
    | q :: r0 =>
      if q ≠ 34 then none
      else
        match parseString r0 with
        | none => none
        | some (k, r1) =>
          match skipSpace r1 with
          | [] => none
          | colon :: r2 =>
            if colon ≠ 58 then none
            else
              match parseValue fuel r2 with
              | none => none
              | some (v, rest) =>
                match skipSpace rest with
                | [] => none
                | c :: r =>
                  if c = 44 then
                    match parseMembers fuel r with
                    | some (ms, r3) => some ((k, v) :: ms, r3)
                    | none => none
                  else if c = 125 then some ([(k, v)], r)
                  else none
end

/-- A complete JSON text: one value, with nothing but whitespace after it. -/
def parseJSON (input : GoString) : Option Value :=
  match parseValue (input.length + 1) input with
  | some (v, rest) => if skipSpace rest = [] then some v else none
  | none => none

/-- Whether the keys of a map's entries are in strictly increasing order. -/
def keysIncreasing : List GoString → Bool
  | [] => true
  | [_] => true
  | a :: b :: rest => strLess a b && keysIncreasing (b :: rest)

mutual
/-- The payloads that JSON represents as they are: every string and every map key is
valid UTF-8, no member is unsupported, and the entries of every map are listed in the
order of their keys (a Go map has no order of its own; this fixes one). -/
def Value.plain : Value → Bool
  | .null => true
  | .bool _ => true
  | .int _ => true
  | .string s => ValidString s
  | .array xs => Value.allPlain xs
  | .object ms => keysIncreasing (ms.map Prod.fst) && Value.allEntriesPlain ms
  | .unsupported => false
/-- All elements are plain. -/
def Value.allPlain : List Value → Bool
  | [] => true
  | v :: vs => v.plain && Value.allPlain vs
/-- All entries have a valid key and a plain value. -/
def Value.allEntriesPlain : List (GoString × Value) → Bool
  | [] => true
  | (k, v) :: ms => ValidString k && v.plain && Value.allEntriesPlain ms
end

/-! ## Notions used to state the round trip -/

/-- The number that a run of decimal digits continues `acc` to. -/
def digitsValue (acc : Nat) (ds : List Nat) : Nat := ds.foldl (fun a d => a * 10 + (d - 48)) acc

/-- The start of input that ends a number: not a digit, and not the start of a fraction
or an exponent. -/
def endsNumber (tail : GoString) : Prop :=
  tail.head?.map isDigit ≠ some true ∧ tail.head? ≠ some 46 ∧ tail.head? ≠ some 101 ∧
    tail.head? ≠ some 69

/-- How `mapEncoder.encode` writes one entry: the key as a string, a colon, the value. -/
def encodeEntry (kv : GoString × GoString) : GoString := appendString kv.1 true ++ 58 :: kv.2

/-- A payload with every kind of plain value: a map with a slice, numbers, a string with
characters the encoder escapes, and nested empty containers. -/
def samplePayload : Value :=
  .object [
    (lit "items", .array [.int (-12), .int 0, .null, .bool true, .array [], .object []]),
    (lit "note", .string [60, 10, 34, 195, 169, 226, 128, 168, 1]),
    (lit "status", .string (lit "ok"))]

/-! ## Routing: the table of RegisterControllers -/

section RouteLemmas
variable {H : Type}

theorem lit_users : lit "/users" = [47, 117, 115, 101, 114, 115] := by decide

theorem lit_usersSlash : lit "/users/" = [47, 117, 115, 101, 114, 115, 47] := by decide

theorem lit_usersSlash_eq : lit "/users/" = lit "/users" ++ [47] := by decide

/-- The table that `RegisterControllers` builds, written out. -/
theorem routeTable_eq (uc : H) : routeTable uc =
    { m := [(lit "/users", ⟨uc, lit "/users"⟩), (lit "/users/", ⟨uc, lit "/users/"⟩)]
      es := [⟨uc, lit "/users/"⟩]
      hosts := false } := by
  rfl

theorem mapGet_routeTable (uc : H) (k : GoString) :
    mapGet (routeTable uc).m k =
      if lit "/users" = k then some ⟨uc, lit "/users"⟩
      else if lit "/users/" = k then some ⟨uc, lit "/users/"⟩ else none := by
  rw [routeTable_eq]
  simp only [mapGet]

theorem mapGet_routeTable_isSome (uc : H) (k : GoString) :
    (mapGet (routeTable uc).m k).isSome = true ↔ (k = lit "/users" ∨ k = lit "/users/") := by
  rw [mapGet_routeTable]
  by_cases h1 : lit "/users" = k
  · simp [h1.symm]
  · by_cases h2 : lit "/users/" = k
    · subst h2
      simp [h1]
    · simp only [h1, h2, if_false]
      constructor
      · intro h; cases h
      · rintro (h | h)
        · exact absurd h.symm h1
        · exact absurd h.symm h2

theorem mapGet_routeTable_slash (uc : H) (c : GoString)
    (h : (mapGet (routeTable uc).m (c ++ [47])).isSome = true) :
    (mapGet (routeTable uc).m c).isSome = true := by
  rw [mapGet_routeTable_isSome] at h ⊢
  rcases h with h | h
  · exfalso
    have := congrArg List.getLast? h
    rw [lit_users] at this
    simp at this
  · left
    rw [lit_usersSlash_eq] at h
    exact List.append_cancel_right h

/-- On the table of `RegisterControllers` no request is redirected to a path with a
trailing slash: the only pattern ending in `/` has its slash-less form registered too. -/
theorem shouldRedirect_routeTable (uc : H) (host path : GoString) :
    (routeTable uc).shouldRedirectRLocked host path = false := by
  unfold ServeMux.shouldRedirectRLocked
  by_cases h1 : (mapGet (routeTable uc).m path).isSome = true
  · simp [h1]
  · by_cases h2 : (mapGet (routeTable uc).m (host ++ path)).isSome = true
    · simp [h2]
    · have h3 : (mapGet (routeTable uc).m (path ++ [47])).isSome ≠ true :=
        fun h => h1 (mapGet_routeTable_slash uc _ h)
      have h4 : (mapGet (routeTable uc).m (host ++ (path ++ [47]))).isSome ≠ true := by
        rw [← List.append_assoc]
        exact fun h => h2 (mapGet_routeTable_slash uc _ h)
      simp [h1, h2, h3, h4]

theorem redirectToPathSlash_routeTable (uc : H) (host path : GoString) :
    (routeTable uc).redirectToPathSlash host path = none := by
  simp [ServeMux.redirectToPathSlash, shouldRedirect_routeTable]

/-- The table lookup on the table of `RegisterControllers`. -/
theorem handler_routeTable (uc : H) (host path : GoString) :
    (routeTable uc).handler host path =
      if path = lit "/users" then .registered uc (lit "/users")
      else if HasPrefix path (lit "/users/") = true then .registered uc (lit "/users/")
      else .notFound := by
  unfold ServeMux.handler ServeMux.match
  have hh : (routeTable uc).hosts = false := by rw [routeTable_eq]
  have hes : (routeTable uc).es = [⟨uc, lit "/users/"⟩] := by rw [routeTable_eq]
  simp only [hh, hes, mapGet_routeTable]
  by_cases h1 : path = lit "/users"
  · subst h1; simp
  · have h1' : ¬ lit "/users" = path := fun h => h1 h.symm
    by_cases h2 : lit "/users/" = path
    · subst h2
      simp [h1, h1', HasPrefix]
    · by_cases h3 : HasPrefix path (lit "/users/") = true
      · simp [h1, h1', h2, h3, List.find?]
      · simp [h1, h1', h2, h3, List.find?]

/-- What `Handler` selects on the table of `RegisterControllers`. -/
theorem Handler_routeTable (uc : H) (r : Request)
    (hc : r.Method = lit "CONNECT" ∨ cleanPath r.Path = r.Path) :
    (routeTable uc).Handler r =
      if r.Path = lit "/users" then .registered uc (lit "/users")
      else if HasPrefix r.Path (lit "/users/") = true then .registered uc (lit "/users/")
      else .notFound := by
  unfold ServeMux.Handler
  by_cases hm : r.Method = lit "CONNECT"
  · simp only [hm, if_true, redirectToPathSlash_routeTable, handler_routeTable]
  · have hp : cleanPath r.Path = r.Path := hc.resolve_left hm
    simp only [hm, if_false, redirectToPathSlash_routeTable, handler_routeTable, hp, ne_eq,
      not_true_eq_false]

end RouteLemmas

section UsersTableLemmas
variable {H : Type}

theorem mapGet_usersTable (a b : H) (k : GoString) :
    mapGet (usersTable a b).m k =
      if lit "/users" = k then some ⟨a, lit "/users"⟩
      else if lit "/users/" = k then some ⟨b, lit "/users/"⟩ else none := by
  unfold usersTable
  simp only [mapGet]

theorem mapGet_usersTable_isSome (a b : H) (k : GoString) :
    (mapGet (usersTable a b).m k).isSome = true ↔ (k = lit "/users" ∨ k = lit "/users/") := by
  rw [mapGet_usersTable]
  by_cases h1 : lit "/users" = k
  · simp [h1.symm]
  · by_cases h2 : lit "/users/" = k
    · subst h2
      simp [h1]
    · simp only [h1, h2, if_false]
      constructor
      · intro h; cases h
      · rintro (h | h)
        · exact absurd h.symm h1
        · exact absurd h.symm h2

theorem mapGet_usersTable_slash (a b : H) (c : GoString)
    (h : (mapGet (usersTable a b).m (c ++ [47])).isSome = true) :
    (mapGet (usersTable a b).m c).isSome = true := by
  rw [mapGet_usersTable_isSome] at h ⊢
  rcases h with h | h
  · exfalso
    have := congrArg List.getLast? h
    rw [lit_users] at this
    simp at this
  · left
    rw [lit_usersSlash_eq] at h
    exact List.append_cancel_right h

/-- On a table with the patterns `/users` and `/users/` no request is redirected to a
path with a trailing slash: the only pattern ending in `/` has its slash-less form registered too. -/
theorem shouldRedirect_usersTable (a b : H) (host path : GoString) :
    (usersTable a b).shouldRedirectRLocked host path = false := by
  unfold ServeMux.shouldRedirectRLocked
  by_cases h1 : (mapGet (usersTable a b).m path).isSome = true
  · simp [h1]
  · by_cases h2 : (mapGet (usersTable a b).m (host ++ path)).isSome = true
    · simp [h2]
    · have h3 : (mapGet (usersTable a b).m (path ++ [47])).isSome ≠ true :=
        fun h => h1 (mapGet_usersTable_slash a b _ h)
      have h4 : (mapGet (usersTable a b).m (host ++ (path ++ [47]))).isSome ≠ true := by
        rw [← List.append_assoc]
        exact fun h => h2 (mapGet_usersTable_slash a b _ h)
      simp [h1, h2, h3, h4]

theorem redirectToPathSlash_usersTable (a b : H) (host path : GoString) :
    (usersTable a b).redirectToPathSlash host path = none := by
  simp [ServeMux.redirectToPathSlash, shouldRedirect_usersTable]

/-- The table lookup on a table with the patterns `/users` and `/users/`. -/
theorem handler_usersTable (a b : H) (host path : GoString) :
    (usersTable a b).handler host path =
      if path = lit "/users" then .registered a (lit "/users")
      else if HasPrefix path (lit "/users/") = true then .registered b (lit "/users/")
      else .notFound := by
  unfold ServeMux.handler ServeMux.match
  have hh : (usersTable a b).hosts = false := rfl
  have hes : (usersTable a b).es = [⟨b, lit "/users/"⟩] := rfl
  simp only [hh, hes, mapGet_usersTable]
  by_cases h1 : path = lit "/users"
  · subst h1; simp
  · have h1' : ¬ lit "/users" = path := fun h => h1 h.symm
    by_cases h2 : lit "/users/" = path
    · subst h2
      simp [h1, h1', HasPrefix]
    · by_cases h3 : HasPrefix path (lit "/users/") = true
      · simp [h1, h1', h2, h3, List.find?]
      · simp [h1, h1', h2, h3, List.find?]

/-- What `Handler` selects on a table with the patterns `/users` and `/users/`. -/
theorem Handler_usersTable (a b : H) (r : Request)
    (hc : r.Method = lit "CONNECT" ∨ cleanPath r.Path = r.Path) :
    (usersTable a b).Handler r =
      if r.Path = lit "/users" then .registered a (lit "/users")
      else if HasPrefix r.Path (lit "/users/") = true then .registered b (lit "/users/")
      else .notFound := by
  unfold ServeMux.Handler
  by_cases hm : r.Method = lit "CONNECT"
  · simp only [hm, if_true, redirectToPathSlash_usersTable, handler_usersTable]
  · have hp : cleanPath r.Path = r.Path := hc.resolve_left hm
    simp only [hm, if_false, redirectToPathSlash_usersTable, handler_usersTable, hp, ne_eq,
      not_true_eq_false]

theorem routeTable_eq_usersTable (uc : H) : routeTable uc = usersTable uc uc := rfl

theorem copiesTable_eq_usersTable (uc : H) :
    copiesTable uc = usersTable ⟨uc, 0⟩ ⟨uc, 1⟩ := rfl

end UsersTableLemmas

section RouteTheorems
variable {H : Type}

theorem mapGet_mapSet_self (m : List (GoString × muxEntry H)) (k : GoString)
    (e : muxEntry H) : mapGet (mapSet m k e) k = some e := by
  unfold mapSet
  induction m with
  | nil => simp [mapGet]
  | cons kv rest ih =>
    by_cases h : kv.1 = k
    · simpa [List.filter, h] using ih
    · obtain ⟨k1, e1⟩ := kv
      simp only [List.filter, ne_eq, h, not_false_eq_true, decide_True, List.cons_append, mapGet]
      simpa [h] using ih

theorem filter_mapSet_self (m : List (GoString × muxEntry H)) (k : GoString)
    (e : muxEntry H) :
    (mapSet m k e).filter (fun kv => decide (kv.1 = k)) = [(k, e)] := by
  unfold mapSet
  rw [List.filter_append, List.filter_filter]
  simp

/-- A path that merely has `/users` as a string prefix (`/usersfoo`) is answered with
404 and reaches no registered handler: the claim C1 fails as stated. -/
theorem usersfoo_not_found :
    HasPrefix (lit "/usersfoo") (lit "/users") = true ∧
    ((routeTable (7 : Nat)).ServeHTTP (Request.get (lit "/usersfoo"))).invoked = [] ∧
    ((routeTable (7 : Nat)).ServeHTTP (Request.get (lit "/usersfoo"))).status = some 404 := by
  decide

/-- C1 (amended): a request whose path is exactly `/users` or begins with `/users/`, whose
path is canonical (or whose method is CONNECT, which is not canonicalised) and whose
request-URI is not `*`, is dispatched by the table of `RegisterControllers` to the user
handler, called once, and to nothing else; the reply is not produced by the multiplexer
(no 404, 301 or 400). -/
theorem users_request_reaches_user_handler (uc : H) (r : Request)
    (hstar : r.RequestURI ≠ lit "*")
    (hc : r.Method = lit "CONNECT" ∨ cleanPath r.Path = r.Path)
    (hp : r.Path = lit "/users" ∨ HasPrefix r.Path (lit "/users/") = true) :
    ((routeTable uc).ServeHTTP r).invoked = [uc] ∧
    ((routeTable uc).ServeHTTP r).status = none ∧
    ∃ pattern, (routeTable uc).ServeHTTP r = .serve (.registered uc pattern) := by
  unfold ServeMux.ServeHTTP
  rw [if_neg hstar, Handler_routeTable uc r hc]
  by_cases h1 : r.Path = lit "/users"
  · rw [if_pos h1]
    exact ⟨rfl, rfl, _, rfl⟩
  · rw [if_neg h1, if_pos (hp.resolve_left h1)]
    exact ⟨rfl, rfl, _, rfl⟩

theorem users_request_reaches_user_handler_witness :
    (((routeTable (7 : Nat)).ServeHTTP (Request.get (lit "/users/42"))).invoked = [7] ∧
     ((routeTable (7 : Nat)).ServeHTTP (Request.get (lit "/users/42"))).status = none ∧
     ∃ pattern, (routeTable (7 : Nat)).ServeHTTP (Request.get (lit "/users/42")) =
       .serve (.registered 7 pattern)) :=
  users_request_reaches_user_handler 7 (Request.get (lit "/users/42"))
    (by decide) (Or.inr (by decide)) (Or.inr (by decide))

/-- A request under `/users/` does not always reach the handler: `GET /users//42` is
answered by the multiplexer with a redirect to the cleaned path and no registered handler
is called. And the two bindings do not hold one handler instance: the code passes `*uc`
by value, so `/users` holds copy 0 and `/users/` holds copy 1 of the controller. The
claim C3 fails as stated. -/
theorem users_subtree_redirect_and_two_copies :
    HasPrefix (lit "/users//42") (lit "/users/") = true ∧
    (routeTable (7 : Nat)).ServeHTTP (Request.get (lit "/users//42")) =
      .serve (.redirect (lit "/users/42") [] (lit "/users/")) ∧
    ((routeTable (7 : Nat)).ServeHTTP (Request.get (lit "/users//42"))).invoked = [] ∧
    (mapGet (copiesTable (7 : Nat)).m (lit "/users")).map (fun e => e.h) = some ⟨7, 0⟩ ∧
    (mapGet (copiesTable (7 : Nat)).m (lit "/users/")).map (fun e => e.h) = some ⟨7, 1⟩ ∧
    (⟨7, 0⟩ : Copied Nat) ≠ ⟨7, 1⟩ := by
  decide

/-- C3 (amended): `RegisterControllers` on the empty table returns normally and leaves
exactly the table with the exact pattern `/users` and the subtree pattern `/users/` (the
map, the subtree list and the host flag are all fixed), both bound to the value of the
one controller `uc`; the code passes `*uc` by value, so the binding of `/users` holds copy
0 and the binding of `/users/` holds copy 1 of that controller, not one shared instance.
A request whose path is `/users` or begins with `/users/`, whose path is canonical (or
whose method is CONNECT) and whose request-URI is not `*`, is served once by the copy
bound to the matching pattern, whose value is `uc`, and by nothing else. -/
theorem register_binds_both_paths_by_value (uc : H) (r : Request)
    (hstar : r.RequestURI ≠ lit "*")
    (hc : r.Method = lit "CONNECT" ∨ cleanPath r.Path = r.Path)
    (hp : r.Path = lit "/users" ∨ HasPrefix r.Path (lit "/users/") = true) :
    (RegisterControllers uc Process.start).1 = .returned () ∧
    routeTable uc =
      { m := [(lit "/users", ⟨uc, lit "/users"⟩), (lit "/users/", ⟨uc, lit "/users/"⟩)]
        es := [⟨uc, lit "/users/"⟩]
        hosts := false } ∧
    ((routeTable uc).ServeHTTP r).invoked = [uc] ∧
    (RegisterControllersByValue uc Process.start).1 = .returned () ∧
    copiesTable uc =
      { m := [(lit "/users", ⟨⟨uc, 0⟩, lit "/users"⟩), (lit "/users/", ⟨⟨uc, 1⟩, lit "/users/"⟩)]
        es := [⟨⟨uc, 1⟩, lit "/users/"⟩]
        hosts := false } ∧
    (copiesTable uc).map Copied.value = routeTable uc ∧
    ((copiesTable uc).ServeHTTP r).invoked =
      [if r.Path = lit "/users" then ⟨uc, 0⟩ else ⟨uc, 1⟩] ∧
    (((copiesTable uc).ServeHTTP r).invoked.map Copied.value) = [uc] := by
  have hv : ((routeTable uc).ServeHTTP r).invoked = [uc] := by
    unfold ServeMux.ServeHTTP
    rw [if_neg hstar, routeTable_eq_usersTable, Handler_usersTable uc uc r hc]
    by_cases h1 : r.Path = lit "/users"
    · rw [if_pos h1]; rfl
    · rw [if_neg h1, if_pos (hp.resolve_left h1)]; rfl
  have hcp : ((copiesTable uc).ServeHTTP r).invoked =
      [if r.Path = lit "/users" then ⟨uc, 0⟩ else ⟨uc, 1⟩] := by
    unfold ServeMux.ServeHTTP
    rw [if_neg hstar, copiesTable_eq_usersTable, Handler_usersTable _ _ r hc]
    by_cases h1 : r.Path = lit "/users"
    · rw [if_pos h1, if_pos h1]; rfl
    · rw [if_neg h1, if_pos (hp.resolve_left h1), if_neg h1]; rfl
  refine ⟨rfl, rfl, hv, rfl, rfl, rfl, hcp, ?_⟩
  rw [hcp]
  by_cases h1 : r.Path = lit "/users"
  · rw [if_pos h1]; rfl
  · rw [if_neg h1]; rfl

theorem register_binds_both_paths_by_value_witness :
    (RegisterControllers (7 : Nat) Process.start).1 = .returned () ∧
    routeTable (7 : Nat) =
      { m := [(lit "/users", ⟨7, lit "/users"⟩), (lit "/users/", ⟨7, lit "/users/"⟩)]
        es := [⟨7, lit "/users/"⟩]
        hosts := false } ∧
    ((routeTable (7 : Nat)).ServeHTTP (Request.get (lit "/users/7/posts"))).invoked = [7] ∧
    (RegisterControllersByValue (7 : Nat) Process.start).1 = .returned () ∧
    copiesTable (7 : Nat) =
      { m := [(lit "/users", ⟨⟨7, 0⟩, lit "/users"⟩), (lit "/users/", ⟨⟨7, 1⟩, lit "/users/"⟩)]
        es := [⟨⟨7, 1⟩, lit "/users/"⟩]
        hosts := false } ∧
    (copiesTable (7 : Nat)).map Copied.value = routeTable 7 ∧
    ((copiesTable (7 : Nat)).ServeHTTP (Request.get (lit "/users/7/posts"))).invoked =
      [if (Request.get (lit "/users/7/posts")).Path = lit "/users" then ⟨7, 0⟩ else ⟨7, 1⟩] ∧
    (((copiesTable (7 : Nat)).ServeHTTP (Request.get (lit "/users/7/posts"))).invoked.map
      Copied.value) = [7] :=
  register_binds_both_paths_by_value 7 (Request.get (lit "/users/7/posts"))
    (by decide) (Or.inr (by decide)) (Or.inr (by decide))

/-- A request whose path matches no pattern but is not canonical (`//unknown-path`) is
answered with a 301 redirect to the cleaned path, not with 404: the claim C4 fails as
stated. -/
theorem uncanonical_unknown_path_redirects :
    HasPrefix (lit "//unknown-path") (lit "/users") = false ∧
    (routeTable (7 : Nat)).ServeHTTP (Request.get (lit "//unknown-path")) =
      .serve (.redirect (lit "/unknown-path") [] []) ∧
    ((routeTable (7 : Nat)).ServeHTTP (Request.get (lit "//unknown-path"))).status = some 301 := by
  decide

/-- C4 (amended): a request whose path is neither `/users` nor begins with `/users/`, whose
path is canonical (or whose method is CONNECT) and whose request-URI is not `*`, gets the
404 reply of the not-found handler from the table of `RegisterControllers`, and no
registered handler is called. -/
theorem unmatched_request_not_found (uc : H) (r : Request)
    (hstar : r.RequestURI ≠ lit "*")
    (hc : r.Method = lit "CONNECT" ∨ cleanPath r.Path = r.Path)
    (h1 : r.Path ≠ lit "/users") (h2 : HasPrefix r.Path (lit "/users/") = false) :
    (routeTable uc).ServeHTTP r = .serve .notFound ∧
    ((routeTable uc).ServeHTTP r).invoked = [] ∧
    ((routeTable uc).ServeHTTP r).status = some 404 := by
  have h : (routeTable uc).ServeHTTP r = .serve .notFound := by
    unfold ServeMux.ServeHTTP
    rw [if_neg hstar, Handler_routeTable uc r hc, if_neg h1, h2]
    rfl
  rw [h]
  exact ⟨rfl, rfl, rfl⟩

theorem unmatched_request_not_found_witness :
    (routeTable (7 : Nat)).ServeHTTP (Request.get (lit "/unknown-path")) = .serve .notFound ∧
    ((routeTable (7 : Nat)).ServeHTTP (Request.get (lit "/unknown-path"))).invoked = [] ∧
    ((routeTable (7 : Nat)).ServeHTTP (Request.get (lit "/unknown-path"))).status = some 404 :=
  unmatched_request_not_found 7 (Request.get (lit "/unknown-path"))
    (by decide) (Or.inr (by decide)) (by decide) (by decide)

/-- C7: from a fresh process `main` calls, in this order, `http.Handle("/users", uc)`,
`http.Handle("/users/", uc)` and `http.ListenAndServe(":3000", nil)` and nothing after
it, whatever the listener does; the default route table when `main` ends or blocks is the
one `RegisterControllers` built. -/
theorem main_registers_then_listens (env : ListenOutcome) (uc : H) :
    (main env uc Process.start).2.calls =
      [Call.Handle (lit "/users") uc, Call.Handle (lit "/users/") uc,
       Call.ListenAndServe (lit ":3000") none] ∧
    (main env uc Process.start).2.DefaultServeMux = routeTable uc := by
  cases env <;> exact ⟨rfl, rfl⟩

/-- Registering `/users` twice does not succeed: the second `http.Handle` panics, and so
does the second call of `RegisterControllers`. The claim C8 fails as stated. -/
theorem second_registration_panics :
    (Go.bind (Handle (lit "/users") (1 : Nat)) (fun _ => Handle (lit "/users") 2)
      Process.start).1 = .panicked (.multipleRegistrations (lit "/users")) ∧
    (Go.bind (RegisterControllers (1 : Nat)) (fun _ => RegisterControllers 1)
      Process.start).1 = .panicked (.multipleRegistrations (lit "/users")) := by
  decide

/-- C8 (amended): once `Handle` has bound `p` to `h1`, the table has exactly one binding
for `p`, to `h1`, and registering `p` again with any `h2` panics with "multiple
registrations" instead of replacing it; a second call of `RegisterControllers` panics at
its first `Handle` and leaves the two bindings of the first call. -/
theorem repeated_registration_panics (mux mux1 : ServeMux H) (p : GoString) (h1 h2 : H)
    (hreg : mux.Handle p h1 = .ok mux1) (uc : H) :
    mux1.Handle p h2 = .error (.multipleRegistrations p) ∧
    mapGet mux1.m p = some ⟨h1, p⟩ ∧
    (mux1.m.filter (fun kv => decide (kv.1 = p))).length = 1 ∧
    (Go.bind (RegisterControllers uc) (fun _ => RegisterControllers uc) Process.start).1 =
      .panicked (.multipleRegistrations (lit "/users")) ∧
    (Go.bind (RegisterControllers uc) (fun _ => RegisterControllers uc)
      Process.start).2.DefaultServeMux = routeTable uc := by
  have hm : mux1.m = mapSet mux.m p ⟨h1, p⟩ ∧ p ≠ [] := by
    unfold ServeMux.Handle at hreg
    by_cases hp : p = []
    · simp [hp] at hreg
    · by_cases hs : (mapGet mux.m p).isSome = true
      · simp [hp, hs] at hreg
      · simp only [hp, hs, if_false] at hreg
        injection hreg with hreg
        exact ⟨by rw [← hreg], hp⟩
  have hget : mapGet mux1.m p = some ⟨h1, p⟩ := by rw [hm.1, mapGet_mapSet_self]
  refine ⟨?_, hget, ?_, rfl, rfl⟩
  · unfold ServeMux.Handle
    rw [if_neg hm.2, hget]
    rfl
  · rw [hm.1, filter_mapSet_self]
    rfl

theorem repeated_registration_panics_witness :
    (ServeMux.Handle (⟨[(lit "/users", ⟨1, lit "/users"⟩)], [], false⟩ : ServeMux Nat)
        (lit "/users") 2 = .error (.multipleRegistrations (lit "/users")) ∧
      mapGet [(lit "/users", (⟨1, lit "/users"⟩ : muxEntry Nat))] (lit "/users") =
        some ⟨1, lit "/users"⟩ ∧
      ([(lit "/users", (⟨1, lit "/users"⟩ : muxEntry Nat))].filter
        (fun kv => decide (kv.1 = lit "/users"))).length = 1 ∧
      (Go.bind (RegisterControllers (1 : Nat)) (fun _ => RegisterControllers 1)
        Process.start).1 = .panicked (.multipleRegistrations (lit "/users")) ∧
      (Go.bind (RegisterControllers (1 : Nat)) (fun _ => RegisterControllers 1)
        Process.start).2.DefaultServeMux = routeTable 1) :=
  repeated_registration_panics ServeMux.empty _ (lit "/users") 1 2 rfl 1

/-- C9: whatever the listener does, `main` writes nothing to standard error; when
`ListenAndServe` returns an error, whichever it is, `main` returns normally and the
process exits with status 0. -/
theorem main_discards_listen_error (uc : H) :
    (∀ env : ListenOutcome, (main env uc Process.start).2.stderr = []) ∧
    (∀ err : GoString,
      (main (.failed err) uc Process.start).1 = .returned () ∧
      exitStatus (main (.failed err) uc Process.start).1 = some 0) := by
  refine ⟨fun env => ?_, fun err => ⟨rfl, rfl⟩⟩
  cases env <;> rfl

end RouteTheorems

/-! ## The response encoder -/

section EncoderLemmas

mutual
theorem marshal_error_kind (esc : Bool) :
    ∀ (v : Value) (e : GoError), marshal esc v = .error e → e = GoError.Unsupported
  | .null, e, h => by simp [marshal] at h
  | .bool _, e, h => by simp [marshal] at h
  | .int _, e, h => by simp [marshal] at h
  | .string _, e, h => by simp [marshal] at h
  | .unsupported, e, h => by
    simp only [marshal, Except.error.injEq] at h
    exact h.symm
  | .array xs, e, h => by
    rw [marshal] at h
    cases hx : marshalElems esc xs with
    | ok es => rw [hx] at h; cases h
    | error e1 =>
      rw [hx] at h
      injection h with h
      exact h ▸ marshalElems_error_kind esc xs e1 hx
  | .object ms, e, h => by
    rw [marshal] at h
    cases hx : marshalEntries esc ms with
    | ok es => rw [hx] at h; cases h
    | error e1 =>
      rw [hx] at h
      injection h with h
      exact h ▸ marshalEntries_error_kind esc ms e1 hx
theorem marshalElems_error_kind (esc : Bool) :
    ∀ (xs : List Value) (e : GoError), marshalElems esc xs = .error e →
      e = GoError.Unsupported
  | [], e, h => by simp [marshalElems] at h
  | v :: vs, e, h => by
    rw [marshalElems] at h
    cases hv : marshal esc v with
    | error e1 =>
      rw [hv] at h
      injection h with h
      exact h ▸ marshal_error_kind esc v e1 hv
    | ok b =>
      rw [hv] at h
      cases hx : marshalElems esc vs with
      | ok bs => rw [hx] at h; cases h
      | error e1 =>
        rw [hx] at h
        injection h with h
        exact h ▸ marshalElems_error_kind esc vs e1 hx
theorem marshalEntries_error_kind (esc : Bool) :
    ∀ (ms : List (GoString × Value)) (e : GoError), marshalEntries esc ms = .error e →
      e = GoError.Unsupported
  | [], e, h => by simp [marshalEntries] at h
  | (k, v) :: ms, e, h => by
    rw [marshalEntries] at h
    cases hv : marshal esc v with
    | error e1 =>
      rw [hv] at h
      injection h with h
      exact h ▸ marshal_error_kind esc v e1 hv
    | ok b =>
      rw [hv] at h
      cases hx : marshalEntries esc ms with
      | ok bs => rw [hx] at h; cases h
      | error e1 =>
        rw [hx] at h
        injection h with h
        exact h ▸ marshalEntries_error_kind esc ms e1 hx
end

mutual
theorem marshal_hasUnsupported (esc : Bool) :
    ∀ v : Value, v.hasUnsupported = true → marshal esc v = .error GoError.Unsupported
  | .null, h => by simp [Value.hasUnsupported] at h
  | .bool _, h => by simp [Value.hasUnsupported] at h
  | .int _, h => by simp [Value.hasUnsupported] at h
  | .string _, h => by simp [Value.hasUnsupported] at h
  | .unsupported, _ => by simp [marshal]
  | .array xs, h => by
    rw [Value.hasUnsupported] at h
    simp [marshal, marshalElems_anyUnsupported esc xs h]
  | .object ms, h => by
    rw [Value.hasUnsupported] at h
    simp [marshal, marshalEntries_anyUnsupported esc ms h]
theorem marshalElems_anyUnsupported (esc : Bool) :
    ∀ xs : List Value, Value.anyUnsupported xs = true →
      marshalElems esc xs = .error GoError.Unsupported
  | [], h => by simp [Value.anyUnsupported] at h
  | v :: vs, h => by
    rw [Value.anyUnsupported, Bool.or_eq_true] at h
    rw [marshalElems]
    rcases h with h | h
    · rw [marshal_hasUnsupported esc v h]
    · rw [marshalElems_anyUnsupported esc vs h]
      cases hm : marshal esc v with
      | error e => rw [marshal_error_kind esc v e hm]
      | ok b => rfl
theorem marshalEntries_anyUnsupported (esc : Bool) :
    ∀ ms : List (GoString × Value), Value.anyEntryUnsupported ms = true →
      marshalEntries esc ms = .error GoError.Unsupported
  | [], h => by simp [Value.anyEntryUnsupported] at h
  | (k, v) :: ms, h => by
    rw [Value.anyEntryUnsupported, Bool.or_eq_true] at h
    rw [marshalEntries]
    rcases h with h | h
    · rw [marshal_hasUnsupported esc v h]
    · rw [marshalEntries_anyUnsupported esc ms h]
      cases hm : marshal esc v with
      | error e => rw [marshal_error_kind esc v e hm]
      | ok b => rfl
end

end EncoderLemmas

section EncoderTheorems

/-- What `encodeResponseAsJSON` leaves in the writer when the encoding succeeds: the
result of one `Write` of the encoding and a newline. -/
theorem encodeResponseAsJSON_ok {W : Type} [Writer W] (data : Value) (b : GoString) (w : W)
    (h : marshal true data = .ok b) :
    (encodeResponseAsJSON data w).2 = (Writer.Write w (b ++ [10])).1 := by
  simp only [encodeResponseAsJSON, NewEncoder, Encoder.Encode, h]
  rcases hw : Writer.Write w (b ++ [10]) with ⟨w1, n, _ | e⟩ <;> rfl

/-- What `encodeResponseAsJSON` leaves in the writer when the encoding fails: the writer
as it was. -/
theorem encodeResponseAsJSON_error {W : Type} [Writer W] (data : Value) (e : GoError) (w : W)
    (h : marshal true data = .error e) :
    (encodeResponseAsJSON data w).2 = w := by
  simp only [encodeResponseAsJSON, NewEncoder, Encoder.Encode, h]

theorem Sink.Write_contents_prefix (s : Sink) (p : List Nat) :
    s.contents <+: (Sink.Write s p).1.contents := by
  unfold Sink.Write
  cases s.room with
  | none => exact List.prefix_append _ _
  | some k =>
    by_cases hk : p.length ≤ k
    · simp only [hk, if_true]; exact List.prefix_append _ _
    · simp only [hk, if_false]; exact List.prefix_append _ _

/-- C5: when the payload can be encoded, `encodeResponseAsJSON` does with the writer
exactly one `Write`, of the JSON encoding followed by one newline; a sink without limit
that held `s` then holds `s`, the encoding and the newline; for `{"status":"ok"}` an empty
sink ends up with exactly the bytes `{"status":"ok"}` and a newline. -/
theorem encode_writes_json_then_newline {W : Type} [Writer W] (data : Value) (b : GoString)
    (w : W) (h : marshal true data = .ok b) :
    (encodeResponseAsJSON data w).2 = (Writer.Write w (b ++ [10])).1 ∧
    (∀ s : List Nat, (encodeResponseAsJSON data (⟨s, none⟩ : Sink)).2.contents = s ++ b ++ [10]) ∧
    (encodeResponseAsJSON statusOk Sink.empty).2.contents =
      lit "\x7b\"status\":\"ok\"\x7d\n" := by
  refine ⟨encodeResponseAsJSON_ok data b w h, fun s => ?_, by decide⟩
  rw [encodeResponseAsJSON_ok data b _ h]
  simp [Writer.Write, Sink.Write]

theorem encode_writes_json_then_newline_witness :
    (encodeResponseAsJSON statusOk Sink.empty).2 =
        (Writer.Write Sink.empty (lit "\x7b\"status\":\"ok\"\x7d" ++ [10])).1 ∧
    (∀ s : List Nat, (encodeResponseAsJSON statusOk (⟨s, none⟩ : Sink)).2.contents =
        s ++ lit "\x7b\"status\":\"ok\"\x7d" ++ [10]) ∧
    (encodeResponseAsJSON statusOk Sink.empty).2.contents =
      lit "\x7b\"status\":\"ok\"\x7d\n" :=
  encode_writes_json_then_newline statusOk (lit "\x7b\"status\":\"ok\"\x7d") Sink.empty rfl

/-- C6: for a value with a member that JSON cannot represent, `Encode` returns an
encoding error, and `encodeResponseAsJSON` returns all the same, with the writer untouched
and the same (empty) result as for any other payload and writer. -/
theorem encode_failure_not_surfaced {W : Type} [Writer W] (data : Value) (w : W)
    (h : data.hasUnsupported = true) :
    ((NewEncoder w).Encode data).2 = some GoError.Unsupported ∧
    (encodeResponseAsJSON data w).2 = w ∧
    (∀ (data1 : Value) (w1 : W),
      (encodeResponseAsJSON data w).1 = (encodeResponseAsJSON data1 w1).1) := by
  have hm := marshal_hasUnsupported true data h
  refine ⟨?_, encodeResponseAsJSON_error data _ w hm, fun _ _ => rfl⟩
  simp only [NewEncoder, Encoder.Encode, hm]

theorem encode_failure_not_surfaced_witness :
    ((NewEncoder Sink.empty).Encode (.array [.int 1, .unsupported])).2 =
        some GoError.Unsupported ∧
    (encodeResponseAsJSON (.array [.int 1, .unsupported]) Sink.empty).2 = Sink.empty ∧
    (∀ (data1 : Value) (w1 : Sink),
      (encodeResponseAsJSON (.array [.int 1, .unsupported]) Sink.empty).1 =
        (encodeResponseAsJSON data1 w1).1) :=
  encode_failure_not_surfaced (.array [.int 1, .unsupported]) Sink.empty (by decide)

/-- C10: all that `encodeResponseAsJSON` does to the world is at most one `Write` on the
writer it was given (no other operation on it, nothing else touched), and on a sink the
bytes held before the call are a prefix of the bytes held after it. -/
theorem encode_only_appends_to_sink {W : Type} [Writer W] (data : Value) (w : W) :
    ((encodeResponseAsJSON data w).2 = w ∨
      ∃ p, (encodeResponseAsJSON data w).2 = (Writer.Write w p).1) ∧
    (∀ s : Sink, s.contents <+: (encodeResponseAsJSON data s).2.contents) := by
  constructor
  · cases hm : marshal true data with
    | error e => exact Or.inl (encodeResponseAsJSON_error data e w hm)
    | ok b => exact Or.inr ⟨_, encodeResponseAsJSON_ok data b w hm⟩
  · intro s
    cases hm : marshal true data with
    | error e => rw [encodeResponseAsJSON_error data e s hm]
    | ok b =>
      rw [encodeResponseAsJSON_ok data b s hm]
      exact Sink.Write_contents_prefix s _

end EncoderTheorems

/-! ## Reading back what the encoder writes: numbers -/

theorem parseDigits_append (ds tail : GoString) (acc : Nat)
    (hds : ∀ d ∈ ds, isDigit d = true) (htail : tail.head?.map isDigit ≠ some true) :
    parseDigits (ds ++ tail) acc = (digitsValue acc ds, tail) := by
  induction ds generalizing acc with
  | nil =>
    cases tail with
    | nil => rfl
    | cons b rest =>
      have hb : isDigit b = false := by
        cases h : isDigit b
        · rfl
        · exact absurd (by simp [h]) htail
      simp [parseDigits, hb, digitsValue]
  | cons d ds ih =>
    have hd := hds d (List.mem_cons_self _ _)
    have e : parseDigits (d :: ds ++ tail) acc = parseDigits (ds ++ tail) (acc * 10 + (d - 48)) := by
      simp only [List.cons_append, parseDigits, hd, if_true]
      rfl
    rw [e, ih _ (fun x hx => hds x (List.mem_cons_of_mem _ hx))]
    rfl

theorem appendDigits_isDigit (fuel n : Nat) (acc : List Nat) (hn : n < fuel)
    (hacc : ∀ d ∈ acc, isDigit d = true) :
    ∀ d ∈ appendDigits fuel n acc, isDigit d = true := by
  induction fuel generalizing n acc with
  | zero => omega
  | succ fuel ih =>
    unfold appendDigits
    by_cases h : n < 10
    · simp only [h, if_true]
      intro d hd
      rcases List.mem_cons.1 hd with rfl | hd
      · simp [isDigit]; omega
      · exact hacc d hd
    · simp only [h, if_false]
      apply ih
      · omega
      · intro d hd
        rcases List.mem_cons.1 hd with rfl | hd
        · simp [isDigit]; omega
        · exact hacc d hd

theorem appendDigits_value (fuel n : Nat) (acc : List Nat) (hn : n < fuel) :
    digitsValue 0 (appendDigits fuel n acc) = digitsValue n acc := by
  induction fuel generalizing n acc with
  | zero => omega
  | succ fuel ih =>
    unfold appendDigits
    by_cases h : n < 10
    · simp only [h, if_true, digitsValue, List.foldl_cons]
      congr 1
      omega
    · simp only [h, if_false]
      rw [ih (n / 10) _ (by omega)]
      simp only [digitsValue, List.foldl_cons]
      congr 1
      omega

theorem appendDigits_head (fuel n : Nat) (acc : List Nat) (hn : n < fuel) :
    ∃ d rest, appendDigits fuel n acc = d :: rest ∧ isDigit d = true ∧ (0 < n → d ≠ 48) := by
  induction fuel generalizing n acc with
  | zero => omega
  | succ fuel ih =>
    unfold appendDigits
    by_cases h : n < 10
    · simp only [h, if_true]
      exact ⟨48 + n, acc, rfl, by simp [isDigit]; omega, by omega⟩
    · simp only [h, if_false]
      obtain ⟨d, rest, he, hd, h0⟩ := ih (n / 10) ((48 + n % 10) :: acc) (by omega)
      exact ⟨d, rest, he, hd, fun _ => h0 (by omega)⟩

theorem formatUint_zero : formatUint 0 = [48] := rfl

theorem parseNumber_formatUint (n : Nat) (tail : GoString) (ht : endsNumber tail) :
    parseNumber (formatUint n ++ tail) = some ((n : Int), tail) := by
  obtain ⟨d, rest, he, hd, h0⟩ := appendDigits_head (n + 1) n [] (Nat.lt_succ_self n)
  have hall := appendDigits_isDigit (n + 1) n [] (Nat.lt_succ_self n) (by simp)
  have hval := appendDigits_value (n + 1) n [] (Nat.lt_succ_self n)
  have hpd := parseDigits_append (formatUint n) tail 0 hall ht.1
  unfold formatUint at hpd ⊢
  rw [he] at hpd hval hall ⊢
  have hd45 : d ≠ 45 := by
    intro h; rw [h] at hd; simp [isDigit] at hd
  unfold parseNumber
  simp only [List.cons_append, List.head?_cons, Option.some.injEq, hd45, decide_False,
    Bool.false_eq_true, if_false, hd, Bool.not_true]
  have hzero : ¬ (d = 48 ∧ (rest ++ tail).head?.map isDigit = some true) := by
    rintro ⟨hd48, hr⟩
    by_cases hn : 0 < n
    · exact h0 hn hd48
    · have hn0 : n = 0 := by omega
      subst hn0
      have : rest = [] := by
        have := he
        simp [appendDigits] at this
        exact this.2
      subst this
      exact ht.1 hr
  rw [if_neg hzero]
  rw [List.cons_append] at hpd
  rw [hpd]
  simp only [digitsValue] at hval
  simp only [digitsValue, hval, List.foldl_nil]
  rw [if_neg (by
    rintro (h | h | h)
    · exact ht.2.1 h
    · exact ht.2.2.1 h
    · exact ht.2.2.2 h)]

theorem parseNumber_formatInt (i : Int) (tail : GoString) (ht : endsNumber tail) :
    parseNumber (formatInt i ++ tail) = some (i, tail) := by
  unfold formatInt
  by_cases hi : i < 0
  · rw [if_pos hi]
    have h := parseNumber_formatUint i.natAbs tail ht
    obtain ⟨d, rest, he, hd, -⟩ := appendDigits_head (i.natAbs + 1) i.natAbs [] (Nat.lt_succ_self _)
    have hd45 : d ≠ 45 := by
      intro h; rw [h] at hd; simp [isDigit] at hd
    unfold formatUint at h ⊢
    rw [he] at h ⊢
    unfold parseNumber at h ⊢
    simp only [List.cons_append, List.head?_cons, Option.some.injEq, hd45, decide_False,
      Bool.false_eq_true, if_false, decide_True, if_true, List.tail_cons] at h ⊢
    revert h
    split
    · intro h; cases h
    · split
      · intro h; cases h
      · split
        · intro h; cases h
        · intro h
          simp only [Option.some.injEq, Prod.mk.injEq] at h ⊢
          refine ⟨?_, h.2⟩
          have := h.1
          omega
  · rw [if_neg hi]
    have h := parseNumber_formatUint i.natAbs tail ht
    rw [h]
    congr 2
    omega

/-! ## Reading back what the encoder writes: strings -/

theorem hexVal_hex (i : Nat) (h : i < 16) : hexVal (hex i) = some i := by
  interval_cases i <;> rfl

theorem stringElem_escapeByte (b : Nat) (tail : GoString) (hb : b < 0x80) :
    stringElem (escapeByte b ++ tail) = some ([b], tail) := by
  interval_cases b <;> rfl

theorem escapeByte_length (b : Nat) : 2 ≤ (escapeByte b).length := by
  unfold escapeByte
  repeat' split
  all_goals simp

theorem escapeByte_head (b : Nat) : ∃ rest, escapeByte b = 92 :: rest := by
  unfold escapeByte
  repeat' split
  all_goals exact ⟨_, rfl⟩

theorem first_spec (b sz lo hi : Nat) (h : first b = some (sz, lo, hi)) :
    (sz = 2 ∧ 0xC2 ≤ b ∧ b ≤ 0xDF ∧ 0x80 ≤ lo ∧ hi ≤ 0xBF) ∨
    (sz = 3 ∧ 0xE0 ≤ b ∧ b ≤ 0xEF ∧ 0x80 ≤ lo ∧ hi ≤ 0xBF) ∨
    (sz = 4 ∧ 0xF0 ≤ b ∧ b ≤ 0xF4 ∧ 0x80 ≤ lo ∧ hi ≤ 0xBF ∧ (b = 0xF0 → 0x90 ≤ lo)) := by
  unfold first at h
  repeat' split at h
  all_goals simp only [Option.some.injEq, Prod.mk.injEq, reduceCtorEq] at h
  all_goals omega

/-- What `DecodeRuneInString` returns for a string that starts with a byte of `0x80` or
more: an error of width one, or the rune of a well-formed sequence of two, three or four
bytes. -/
theorem DecodeRuneInString_cases (b : Nat) (rest : GoString) (hb : ¬ b < 0x80) :
    DecodeRuneInString (b :: rest) = (RuneError, 1) ∨
    (∃ s1 t, rest = s1 :: t ∧ 0x80 ≤ s1 ∧ s1 ≤ 0xBF ∧
      DecodeRuneInString (b :: rest) = ((b % 32) * 64 + s1 % 64, 2)) ∨
    (∃ s1 s2 t, rest = s1 :: s2 :: t ∧ 0xE0 ≤ b ∧ b ≤ 0xEF ∧ 0x80 ≤ s1 ∧ s1 ≤ 0xBF ∧
      0x80 ≤ s2 ∧ s2 ≤ 0xBF ∧
      DecodeRuneInString (b :: rest) = ((b % 16) * 4096 + (s1 % 64) * 64 + s2 % 64, 3)) ∨
    (∃ s1 s2 s3 t, rest = s1 :: s2 :: s3 :: t ∧ 0xF0 ≤ b ∧ b ≤ 0xF4 ∧ 0x80 ≤ s1 ∧ s1 ≤ 0xBF ∧
      (b = 0xF0 → 0x90 ≤ s1) ∧ 0x80 ≤ s2 ∧ s2 ≤ 0xBF ∧ 0x80 ≤ s3 ∧ s3 ≤ 0xBF ∧
      DecodeRuneInString (b :: rest) =
        ((b % 8) * 262144 + (s1 % 64) * 4096 + (s2 % 64) * 64 + s3 % 64, 4)) := by
  unfold DecodeRuneInString
  simp only [hb, if_false]
  rcases hf : first b with _ | ⟨sz, lo, hi⟩
  · exact Or.inl rfl
  · have hs := first_spec b sz lo hi hf
    simp only
    by_cases hlen : (b :: rest).length < sz
    · simp only [hlen, if_true, true_or]
    · simp only [hlen, if_false]
      cases rest with
      | nil => exact Or.inl rfl
      | cons s1 t1 =>
        simp only
        by_cases h1 : s1 < lo ∨ hi < s1
        · simp only [h1, if_true, true_or]
        · simp only [h1, if_false]
          by_cases hsz2 : sz ≤ 2
          · simp only [hsz2, if_true]
            right; left
            exact ⟨s1, t1, rfl, by omega, by omega, rfl⟩
          · simp only [hsz2, if_false]
            cases t1 with
            | nil => exact Or.inl rfl
            | cons s2 t2 =>
              simp only
              by_cases h2 : s2 < 0x80 ∨ 0xBF < s2
              · simp only [h2, if_true, true_or]
              · simp only [h2, if_false]
                by_cases hsz3 : sz ≤ 3
                · simp only [hsz3, if_true]
                  right; right; left
                  exact ⟨s1, s2, t2, rfl, by omega, by omega, by omega, by omega, by omega,
                    by omega, rfl⟩
                · simp only [hsz3, if_false]
                  cases t2 with
                  | nil => exact Or.inl rfl
                  | cons s3 t3 =>
                    simp only
                    by_cases h3 : s3 < 0x80 ∨ 0xBF < s3
                    · simp only [h3, if_true, true_or]
                    · simp only [h3, if_false]
                      right; right; right
                      exact ⟨s1, s2, s3, t3, rfl, by omega, by omega, by omega, by omega,
                        by omega, by omega, by omega, by omega, by omega, rfl⟩

/-- A rune that is not an error of width one: its bytes are all `0x80` or more, there
are between two and four of them, and U+2028 and U+2029 are the sequences `E2 80 A8` and
`E2 80 A9`. -/
theorem DecodeRuneInString_valid (b : Nat) (rest : GoString) (hb : ¬ b < 0x80) (c size : Nat)
    (hd : DecodeRuneInString (b :: rest) = (c, size)) (hv : ¬ (c = RuneError ∧ size = 1)) :
    1 ≤ size ∧ size ≤ (b :: rest).length ∧
    (∀ x ∈ (b :: rest).take size, 0x80 ≤ x) ∧
    (c = 0x2028 → (b :: rest).take size = [0xE2, 0x80, 0xA8]) ∧
    (c = 0x2029 → (b :: rest).take size = [0xE2, 0x80, 0xA9]) := by
  rcases DecodeRuneInString_cases b rest hb with h | ⟨s1, t, rfl, h1, h2, h⟩ |
      ⟨s1, s2, t, rfl, hb1, hb2, h1, h2, h3, h4, h⟩ |
      ⟨s1, s2, s3, t, rfl, hb1, hb2, h1, h2, h12, h3, h4, h5, h6, h⟩
  · rw [h] at hd
    injection hd with hc hs
    exact absurd ⟨hc.symm, hs.symm⟩ hv
  · rw [h] at hd
    injection hd with hc hs
    subst hs
    refine ⟨by omega, by simp, ?_, ?_, ?_⟩
    · intro x hx
      simp only [List.take_succ_cons, List.take_zero, List.mem_cons, List.mem_singleton,
        List.not_mem_nil, or_false] at hx
      omega
    · intro h; omega
    · intro h; omega
  · rw [h] at hd
    injection hd with hc hs
    subst hs
    refine ⟨by omega, by simp, ?_, ?_, ?_⟩
    · intro x hx
      simp only [List.take_succ_cons, List.take_zero, List.mem_cons, List.mem_singleton,
        List.not_mem_nil, or_false] at hx
      omega
    · intro h
      have e1 : b = 0xE2 := by omega
      have e2 : s1 = 0x80 := by omega
      have e3 : s2 = 0xA8 := by omega
      subst e1 e2 e3
      rfl
    · intro h
      have e1 : b = 0xE2 := by omega
      have e2 : s1 = 0x80 := by omega
      have e3 : s2 = 0xA9 := by omega
      subst e1 e2 e3
      rfl
  · rw [h] at hd
    injection hd with hc hs
    subst hs
    refine ⟨by omega, by simp, ?_, ?_, ?_⟩
    · intro x hx
      simp only [List.take_succ_cons, List.take_zero, List.mem_cons, List.mem_singleton,
        List.not_mem_nil, or_false] at hx
      omega
    · intro h; omega
    · intro h; omega

theorem parseStringBody_plain (bs : GoString) (fuel : Nat) (more : GoString)
    (hbs : ∀ b ∈ bs, 0x20 ≤ b ∧ b ≠ 34 ∧ b ≠ 92) :
    parseStringBody (fuel + bs.length) (bs ++ more) =
      (parseStringBody fuel more).map (fun p => (bs ++ p.1, p.2)) := by
  induction bs with
  | nil =>
    cases h : parseStringBody fuel more with
    | none => simp [h]
    | some p => simp [h]
  | cons b bs ih =>
    have hb := hbs b (List.mem_cons_self _ _)
    have ih1 := ih (fun x hx => hbs x (List.mem_cons_of_mem _ hx))
    have e : fuel + (b :: bs).length = (fuel + bs.length) + 1 := by simp; omega
    rw [e, List.cons_append, parseStringBody]
    have h34 : ¬ b = 34 := hb.2.1
    have hse : stringElem (b :: (bs ++ more)) = some ([b], bs ++ more) := by
      unfold stringElem
      have h92 : ¬ b = 92 := hb.2.2
      have hlt : ¬ (b < 0x20 ∨ b = 34) := by omega
      simp only [h92, if_false, hlt]
    simp only [h34, if_false, hse, ih1]
    cases h : parseStringBody fuel more with
    | none => simp
    | some p => simp

/-- The string part of the round trip: the string parser reads a valid UTF-8 string back
from what `appendString` writes between the quotes. -/
theorem parseStringBody_appendStringLoop (fuel : Nat) :
    ∀ (s : GoString), s.length ≤ fuel → validLoop fuel s = true →
    ∀ (fp : Nat) (tail : GoString), (appendStringLoop true fuel s).length + 1 ≤ fp →
      parseStringBody fp (appendStringLoop true fuel s ++ 34 :: tail) = some (s, tail) := by
  induction fuel with
  | zero =>
    intro s hs _ fp tail hfp
    have : s = [] := List.eq_nil_of_length_eq_zero (by omega)
    subst this
    obtain ⟨fp, rfl⟩ : ∃ k, fp = k + 1 := ⟨fp - 1, by omega⟩
    simp [appendStringLoop, parseStringBody]
  | succ fuel ih =>
    intro s hs hv fp tail hfp
    cases s with
    | nil =>
      obtain ⟨fp, rfl⟩ : ∃ k, fp = k + 1 := ⟨fp - 1, by omega⟩
      simp [appendStringLoop, parseStringBody]
    | cons b rest =>
      have hlen : rest.length ≤ fuel := by simpa using hs
      rw [appendStringLoop] at hfp ⊢
      rw [validLoop] at hv
      by_cases hb : b < 0x80
      · simp only [hb, if_true] at hfp hv ⊢
        by_cases hsafe : htmlSafeSet b = true
        · simp only [hsafe, Bool.true_or, if_true] at hfp ⊢
          have hplain : ∀ x ∈ [b], 0x20 ≤ x ∧ x ≠ 34 ∧ x ≠ 92 := by
            intro x hx
            rw [List.mem_singleton] at hx
            subst hx
            simp only [htmlSafeSet, decide_eq_true_eq] at hsafe
            omega
          have hfp1 : (appendStringLoop true fuel rest).length + 1 ≤ fp - 1 := by
            simp only [List.length_cons] at hfp
            omega
          have e : fp = (fp - 1) + [b].length := by
            simp only [List.length_cons, List.length_nil] at hfp ⊢
            omega
          have := parseStringBody_plain [b] (fp - 1)
            (appendStringLoop true fuel rest ++ 34 :: tail) hplain
          rw [← e, ih rest hlen hv (fp - 1) tail hfp1] at this
          simpa using this
        · have hsafe2 : (htmlSafeSet b || (!true && safeSet b)) = false := by simp [hsafe]
          simp only [hsafe2, Bool.false_eq_true, if_false] at hfp ⊢
          obtain ⟨e, he⟩ := escapeByte_head b
          have hl := escapeByte_length b
          obtain ⟨k, rfl⟩ : ∃ k, fp = k + 1 := ⟨fp - 1, by
            simp only [List.length_append] at hfp
            omega⟩
          have hk : (appendStringLoop true fuel rest).length + 1 ≤ k := by
            simp only [List.length_append] at hfp
            omega
          have hse := stringElem_escapeByte b
            (appendStringLoop true fuel rest ++ 34 :: tail) hb
          rw [List.append_assoc]
          rw [he] at hse ⊢
          rw [List.cons_append, parseStringBody]
          rw [List.cons_append] at hse
          simp only [show ¬ (92 : Nat) = 34 by decide, if_false, hse,
            ih rest hlen hv k tail hk, List.singleton_append]
      · simp only [hb, if_false] at hfp hv ⊢
        rcases hd : DecodeRuneInString (b :: rest) with ⟨c, size⟩
        simp only [hd] at hfp hv ⊢
        have hnv : ¬ (c = RuneError ∧ size = 1) := by
          intro h
          simp [h] at hv
        simp only [hnv, if_false] at hfp hv ⊢
        obtain ⟨hs1, hs2, hge, h28, h29⟩ := DecodeRuneInString_valid b rest hb c size hd hnv
        have hdl : ((b :: rest).drop size).length ≤ fuel := by
          simp only [List.length_drop, List.length_cons]
          omega
        by_cases hsep : c = 0x2028 ∨ c = 0x2029
        · simp only [hsep, if_true] at hfp ⊢
          obtain ⟨k, rfl⟩ : ∃ k, fp = k + 1 := ⟨fp - 1, by omega⟩
          have hk : (appendStringLoop true fuel ((b :: rest).drop size)).length + 1 ≤ k := by
            simp only [List.length_append, List.length_cons, List.length_nil] at hfp
            omega
          have hse : stringElem ([92, 117, 50, 48, 50, hex (c % 16)] ++
              (appendStringLoop true fuel ((b :: rest).drop size) ++ 34 :: tail)) =
              some ((b :: rest).take size,
                appendStringLoop true fuel ((b :: rest).drop size) ++ 34 :: tail) := by
            rcases hsep with h | h
            · rw [h28 h, h]; rfl
            · rw [h29 h, h]; rfl
          rw [List.append_assoc]
          rw [List.cons_append] at hse ⊢
          rw [parseStringBody]
          simp only [show ¬ (92 : Nat) = 34 by decide, if_false, hse,
            ih _ hdl hv k tail hk, List.take_append_drop]
        · simp only [hsep, if_false] at hfp ⊢
          have hplain : ∀ x ∈ (b :: rest).take size, 0x20 ≤ x ∧ x ≠ 34 ∧ x ≠ 92 := by
            intro x hx
            have := hge x hx
            omega
          have htl : ((b :: rest).take size).length = size := by
            rw [List.length_take]
            omega
          have hfp1 : (appendStringLoop true fuel ((b :: rest).drop size)).length + 1 ≤
              fp - size := by
            simp only [List.length_append, htl] at hfp
            omega
          have e : fp = (fp - size) + ((b :: rest).take size).length := by
            simp only [List.length_append, htl] at hfp ⊢
            omega
          have := parseStringBody_plain ((b :: rest).take size) (fp - size)
            (appendStringLoop true fuel ((b :: rest).drop size) ++ 34 :: tail) hplain
          rw [← e, ih _ hdl hv (fp - size) tail hfp1] at this
          rw [List.append_assoc, this]
          simp only [Option.map_some', List.take_append_drop]

/-! ## Reading back what the encoder writes: values -/

theorem appendString_append (s tail : GoString) :
    appendString s true ++ tail = 34 :: (appendStringLoop true s.length s ++ 34 :: tail) := by
  simp [appendString]

theorem parseString_appendString (s tail : GoString) (hv : ValidString s = true) :
    parseString (appendStringLoop true s.length s ++ 34 :: tail) = some (s, tail) := by
  unfold parseString
  exact parseStringBody_appendStringLoop s.length s (le_refl _) hv _ tail (by simp)

theorem formatInt_head (i : Int) :
    ∃ d r, formatInt i = d :: r ∧ (d = 45 ∨ isDigit d = true) := by
  unfold formatInt formatUint
  obtain ⟨d, rest, he, hd, -⟩ := appendDigits_head (i.natAbs + 1) i.natAbs [] (Nat.lt_succ_self _)
  by_cases hi : i < 0
  · exact ⟨45, _, by rw [if_pos hi], Or.inl rfl⟩
  · exact ⟨d, rest, by rw [if_neg hi, he], Or.inr hd⟩

theorem endsNumber_cons (c : Nat) (r : GoString)
    (hc : c = 44 ∨ c = 93 ∨ c = 125 ∨ c = 10) : endsNumber (c :: r) := by
  unfold endsNumber
  rcases hc with rfl | rfl | rfl | rfl <;> simp [isDigit]

theorem parseValue_number (i : Int) (k : Nat) (tail : GoString) (ht : endsNumber tail) :
    parseValue (k + 1) (formatInt i ++ tail) = some (.int i, tail) := by
  obtain ⟨d, r, he, hd⟩ := formatInt_head i
  have hp := parseNumber_formatInt i tail ht
  rw [he] at hp ⊢
  rw [List.cons_append] at hp ⊢
  have hns : isSpace d = false := by
    rcases hd with rfl | hd
    · rfl
    · simp only [isDigit, decide_eq_true_eq] at hd
      simp only [isSpace, Bool.or_eq_false_iff, decide_eq_false_iff_not]
      omega
  have hrange : d = 45 ∨ (48 ≤ d ∧ d ≤ 57) := by
    rcases hd with rfl | hd
    · exact Or.inl rfl
    · simp only [isDigit, decide_eq_true_eq] at hd
      exact Or.inr hd
  unfold parseValue
  simp only [skipSpace, hns, Bool.false_eq_true, if_false]
  have h1 : ¬ d = 34 := by omega
  have h2 : ¬ d = 91 := by omega
  have h3 : ¬ d = 123 := by omega
  have h4 : HasPrefix (d :: (r ++ tail)) [110, 117, 108, 108] = false := by
    simp [HasPrefix, List.isPrefixOf]; omega
  have h5 : HasPrefix (d :: (r ++ tail)) [116, 114, 117, 101] = false := by
    simp [HasPrefix, List.isPrefixOf]; omega
  have h6 : HasPrefix (d :: (r ++ tail)) [102, 97, 108, 115, 101] = false := by
    simp [HasPrefix, List.isPrefixOf]; omega
  simp only [h1, h2, h3, h4, h5, h6, if_false, Bool.false_eq_true, hp]

theorem keysIncreasing_sortByKey (kvs : List (GoString × GoString))
    (h : keysIncreasing (kvs.map Prod.fst) = true) : sortByKey kvs = kvs := by
  induction kvs with
  | nil => rfl
  | cons kv rest ih =>
    cases rest with
    | nil => rfl
    | cons kv2 rest2 =>
      simp only [List.map_cons, keysIncreasing, Bool.and_eq_true] at h
      have ih1 := ih (by simpa [List.map_cons] using h.2)
      rw [sortByKey, ih1, insertByKey, if_pos h.1]

theorem marshalEntries_keys (esc : Bool) :
    ∀ (ms : List (GoString × Value)) (kvs : List (GoString × GoString)),
      marshalEntries esc ms = .ok kvs → kvs.map Prod.fst = ms.map Prod.fst
  | [], kvs, h => by
    simp only [marshalEntries, Except.ok.injEq] at h
    subst h; rfl
  | (k, v) :: ms, kvs, h => by
    rw [marshalEntries] at h
    cases hv : marshal esc v with
    | error e => rw [hv] at h; cases h
    | ok b =>
      rw [hv] at h
      cases hx : marshalEntries esc ms with
      | error e => rw [hx] at h; cases h
      | ok bs =>
        rw [hx] at h
        simp only [Except.ok.injEq] at h
        subst h
        simp only [List.map_cons, marshalEntries_keys esc ms bs hx]

theorem skipSpace_cons (c : Nat) (r : GoString) (hc : isSpace c = false) :
    skipSpace (c :: r) = c :: r := by
  simp [skipSpace, hc]

/-- The encoding of a value starts with a byte that is neither whitespace nor a closing
bracket or brace. -/
theorem marshal_head (v : Value) (b : GoString) (hm : marshal true v = .ok b) :
    ∃ c r, b = c :: r ∧ isSpace c = false ∧ c ≠ 93 ∧ c ≠ 125 := by
  cases v with
  | null =>
    simp only [marshal, Except.ok.injEq] at hm; subst hm
    exact ⟨_, _, rfl, by decide, by decide, by decide⟩
  | bool bb =>
    simp only [marshal, Except.ok.injEq] at hm; subst hm
    cases bb
    · exact ⟨_, _, rfl, by decide, by decide, by decide⟩
    · exact ⟨_, _, rfl, by decide, by decide, by decide⟩
  | int i =>
    simp only [marshal, Except.ok.injEq] at hm; subst hm
    obtain ⟨d, r, he, hd⟩ := formatInt_head i
    refine ⟨d, r, he, ?_, ?_, ?_⟩
    · rcases hd with rfl | hd
      · rfl
      · simp only [isDigit, decide_eq_true_eq] at hd
        simp only [isSpace, Bool.or_eq_false_iff, decide_eq_false_iff_not]
        omega
    · rcases hd with rfl | hd
      · decide
      · simp only [isDigit, decide_eq_true_eq] at hd; omega
    · rcases hd with rfl | hd
      · decide
      · simp only [isDigit, decide_eq_true_eq] at hd; omega
  | string s =>
    simp only [marshal, Except.ok.injEq] at hm; subst hm
    exact ⟨_, _, rfl, by decide, by decide, by decide⟩
  | array xs =>
    rw [marshal] at hm
    cases hx : marshalElems true xs with
    | error e => rw [hx] at hm; cases hm
    | ok es =>
      rw [hx] at hm
      simp only [Except.ok.injEq] at hm; subst hm
      exact ⟨_, _, rfl, by decide, by decide, by decide⟩
  | object ms =>
    rw [marshal] at hm
    cases hx : marshalEntries true ms with
    | error e => rw [hx] at hm; cases hm
    | ok es =>
      rw [hx] at hm
      simp only [Except.ok.injEq] at hm; subst hm
      exact ⟨_, _, rfl, by decide, by decide, by decide⟩
  | unsupported => simp [marshal] at hm

theorem joinComma_cons_cons (x y : GoString) (rest : List GoString) :
    joinComma (x :: y :: rest) = x ++ 44 :: joinComma (y :: rest) := rfl

theorem joinComma_head (c : Nat) (r : GoString) (es : List GoString) :
    ∃ r1, joinComma ((c :: r) :: es) = c :: r1 := by
  cases es with
  | nil => exact ⟨r, rfl⟩
  | cons y rest => exact ⟨_, by rw [joinComma_cons_cons]; rfl⟩

theorem joinComma_length_cons (x : GoString) (es : List GoString) :
    x.length ≤ (joinComma (x :: es)).length := by
  cases es with
  | nil => simp [joinComma]
  | cons y rest => rw [joinComma_cons_cons]; simp

mutual
/-- The round trip for a value: the parser reads a plain value back from its encoding,
whatever follows it. -/
theorem parseValue_marshal :
    ∀ (v : Value) (b : GoString), marshal true v = .ok b → v.plain = true →
    ∀ (fuel : Nat) (tail : GoString), b.length ≤ fuel → endsNumber tail →
      parseValue fuel (b ++ tail) = some (v, tail)
  | .null, b, hm, _, fuel, tail, hf, _ => by
    simp only [marshal, Except.ok.injEq] at hm; subst hm
    obtain ⟨k, rfl⟩ : ∃ k, fuel = k + 1 := ⟨fuel - 1, by simp at hf; omega⟩
    simp [parseValue, skipSpace, isSpace, HasPrefix, List.isPrefixOf]
  | .bool bb, b, hm, _, fuel, tail, hf, _ => by
    simp only [marshal, Except.ok.injEq] at hm; subst hm
    obtain ⟨k, rfl⟩ : ∃ k, fuel = k + 1 := ⟨fuel - 1, by
      cases bb <;> simp at hf <;> omega⟩
    cases bb <;> simp [parseValue, skipSpace, isSpace, HasPrefix, List.isPrefixOf]
  | .int i, b, hm, _, fuel, tail, hf, ht => by
    simp only [marshal, Except.ok.injEq] at hm; subst hm
    obtain ⟨d, r, he, -⟩ := formatInt_head i
    obtain ⟨k, rfl⟩ : ∃ k, fuel = k + 1 := ⟨fuel - 1, by
      rw [he] at hf; simp at hf; omega⟩
    exact parseValue_number i k tail ht
  | .string s, b, hm, hp, fuel, tail, hf, _ => by
    simp only [marshal, Except.ok.injEq] at hm; subst hm
    rw [Value.plain] at hp
    obtain ⟨k, rfl⟩ : ∃ k, fuel = k + 1 := ⟨fuel - 1, by
      simp [appendString] at hf; omega⟩
    rw [appendString_append]
    simp only [parseValue, skipSpace, show isSpace 34 = false by decide, Bool.false_eq_true,
      if_false, if_true, parseString_appendString s tail hp]
  | .array xs, b, hm, hp, fuel, tail, hf, _ => by
    rw [marshal] at hm
    cases hx : marshalElems true xs with
    | error e => rw [hx] at hm; cases hm
    | ok es =>
      rw [hx] at hm
      simp only [Except.ok.injEq] at hm; subst hm
      rw [Value.plain] at hp
      obtain ⟨k, rfl⟩ : ∃ k, fuel = k + 1 := ⟨fuel - 1, by simp at hf; omega⟩
      have hk : (joinComma es).length + 1 ≤ k := by
        simp at hf; omega
      cases xs with
      | nil =>
        simp only [marshalElems, Except.ok.injEq] at hx; subst hx
        simp [parseValue, skipSpace, isSpace, joinComma]
      | cons v vs =>
        have hpe := parseElems_marshalElems (v :: vs) es hx hp (by simp) k tail hk
        -- the first element starts the input
        rw [marshalElems] at hx
        cases hv : marshal true v with
        | error e => rw [hv] at hx; cases hx
        | ok e =>
          rw [hv] at hx
          cases hvs : marshalElems true vs with
          | error e1 => rw [hvs] at hx; cases hx
          | ok es1 =>
            rw [hvs] at hx
            simp only [Except.ok.injEq] at hx; subst hx
            obtain ⟨c, r, rfl, hc1, hc2, -⟩ := marshal_head v e hv
            obtain ⟨r1, hj⟩ := joinComma_head c r es1
            rw [hj] at hpe ⊢
            simp only [List.cons_append, parseValue, skipSpace,
              show isSpace 91 = false by decide, Bool.false_eq_true, if_false, hc1,
              show ¬ (91 : Nat) = 34 by decide, if_true, hc2, List.append_assoc,
              List.singleton_append, List.append_eq, List.nil_append] at hpe ⊢
            rw [hpe]
  | .object ms, b, hm, hp, fuel, tail, hf, _ => by
    rw [marshal] at hm
    cases hx : marshalEntries true ms with
    | error e => rw [hx] at hm; cases hm
    | ok kvs =>
      rw [hx] at hm
      simp only [Except.ok.injEq] at hm; subst hm
      rw [Value.plain, Bool.and_eq_true] at hp
      have hkeys := marshalEntries_keys true ms kvs hx
      rw [keysIncreasing_sortByKey kvs (by rw [hkeys]; exact hp.1)] at hf ⊢
      obtain ⟨k, rfl⟩ : ∃ k, fuel = k + 1 := ⟨fuel - 1, by simp at hf; omega⟩
      have hk : (joinComma (kvs.map encodeEntry)).length + 1 ≤ k := by
        simp at hf; unfold encodeEntry; omega
      cases ms with
      | nil =>
        simp only [marshalEntries, Except.ok.injEq] at hx; subst hx
        simp [parseValue, skipSpace, isSpace, joinComma]
      | cons kv ms1 =>
        have hpe := parseMembers_marshalEntries (kv :: ms1) kvs hx hp.2 (by simp) k tail hk
        obtain ⟨key, v⟩ := kv
        rw [marshalEntries] at hx
        cases hv : marshal true v with
        | error e => rw [hv] at hx; cases hx
        | ok e =>
          rw [hv] at hx
          cases hvs : marshalEntries true ms1 with
          | error e1 => rw [hvs] at hx; cases hx
          | ok es1 =>
            rw [hvs] at hx
            simp only [Except.ok.injEq] at hx; subst hx
            have hhead : encodeEntry (key, e) =
                34 :: (appendStringLoop true key.length key ++ 34 :: 58 :: e) := by
              simp [encodeEntry, appendString]
            obtain ⟨r1, hj⟩ := joinComma_head 34 _ (es1.map encodeEntry)
            rw [List.map_cons, hhead, hj] at hpe
            change parseValue (k + 1) (123 :: (joinComma (List.map encodeEntry ((key, e) :: es1))
              ++ [125]) ++ tail) = _
            rw [List.map_cons, hhead, hj]
            simp only [List.cons_append, parseValue, skipSpace,
              show isSpace 123 = false by decide, show isSpace 34 = false by decide,
              Bool.false_eq_true, if_false,
              show ¬ (123 : Nat) = 34 by decide, show ¬ (123 : Nat) = 91 by decide,
              show ¬ (34 : Nat) = 125 by decide, if_true, List.append_assoc,
              List.singleton_append, List.append_eq, List.nil_append] at hpe ⊢
            rw [hpe]
  | .unsupported, b, hm, _, _, _, _, _ => by simp [marshal] at hm
/-- The round trip for the elements of a slice. -/
theorem parseElems_marshalElems :
    ∀ (xs : List Value) (es : List GoString), marshalElems true xs = .ok es →
    Value.allPlain xs = true → xs ≠ [] →
    ∀ (fuel : Nat) (tail : GoString), (joinComma es).length + 1 ≤ fuel →
      parseElems fuel (joinComma es ++ 93 :: tail) = some (xs, tail)
  | [], _, _, _, hne, _, _, _ => absurd rfl hne
  | v :: vs, es, hm, hp, _, fuel, tail, hf => by
    rw [marshalElems] at hm
    cases hv : marshal true v with
    | error e => rw [hv] at hm; cases hm
    | ok e =>
      rw [hv] at hm
      cases hvs : marshalElems true vs with
      | error e1 => rw [hvs] at hm; cases hm
      | ok es1 =>
        rw [hvs] at hm
        simp only [Except.ok.injEq] at hm; subst hm
        rw [Value.allPlain, Bool.and_eq_true] at hp
        obtain ⟨k, rfl⟩ : ∃ k, fuel = k + 1 := ⟨fuel - 1, by omega⟩
        have hle := joinComma_length_cons e es1
        cases vs with
        | nil =>
          simp only [marshalElems, Except.ok.injEq] at hvs; subst hvs
          have h1 := parseValue_marshal v e hv hp.1 k (93 :: tail) (by omega)
            (endsNumber_cons 93 tail (by simp))
          simp only [joinComma] at hf ⊢
          rw [parseElems, h1]
          simp [skipSpace, isSpace]
        | cons v2 vs2 =>
          have hne2 : es1 ≠ [] := by
            intro h; subst h
            rw [marshalElems] at hvs
            cases h2 : marshal true v2 with
            | error e2 => rw [h2] at hvs; cases hvs
            | ok e2 =>
              rw [h2] at hvs
              cases h3 : marshalElems true vs2 with
              | error e3 => rw [h3] at hvs; cases hvs
              | ok e3 => rw [h3] at hvs; cases hvs
          obtain ⟨y, rest, rfl⟩ := List.exists_cons_of_ne_nil hne2
          rw [joinComma_cons_cons] at hf ⊢
          have hf2 : e.length + (joinComma (y :: rest)).length + 2 ≤ k + 1 := by
            simp only [List.length_append, List.length_cons] at hf
            omega
          have h1 := parseValue_marshal v e hv hp.1 k
            (44 :: (joinComma (y :: rest) ++ 93 :: tail)) (by omega)
            (endsNumber_cons 44 _ (by simp))
          have h2 := parseElems_marshalElems (v2 :: vs2) (y :: rest) hvs hp.2 (by simp) k
            tail (by omega)
          rw [parseElems, List.append_assoc, List.cons_append, h1]
          simp [skipSpace, isSpace, h2]
/-- The round trip for the entries of a map, written in the order of their keys. -/
theorem parseMembers_marshalEntries :
    ∀ (ms : List (GoString × Value)) (kvs : List (GoString × GoString)),
    marshalEntries true ms = .ok kvs → Value.allEntriesPlain ms = true → ms ≠ [] →
    ∀ (fuel : Nat) (tail : GoString), (joinComma (kvs.map encodeEntry)).length + 1 ≤ fuel →
      parseMembers fuel (joinComma (kvs.map encodeEntry) ++ 125 :: tail) = some (ms, tail)
  | [], _, _, _, hne, _, _, _ => absurd rfl hne
  | (key, v) :: ms1, kvs, hm, hp, _, fuel, tail, hf => by
    rw [marshalEntries] at hm
    cases hv : marshal true v with
    | error e => rw [hv] at hm; cases hm
    | ok e =>
      rw [hv] at hm
      cases hvs : marshalEntries true ms1 with
      | error e1 => rw [hvs] at hm; cases hm
      | ok es1 =>
        rw [hvs] at hm
        simp only [Except.ok.injEq] at hm; subst hm
        rw [Value.allEntriesPlain, Bool.and_eq_true, Bool.and_eq_true] at hp
        obtain ⟨⟨hkey, hpv⟩, hprest⟩ := hp
        obtain ⟨k, rfl⟩ : ∃ k, fuel = k + 1 := ⟨fuel - 1, by omega⟩
        have hhead : ∀ t, encodeEntry (key, e) ++ t =
            34 :: (appendStringLoop true key.length key ++ 34 :: 58 :: (e ++ t)) := by
          intro t; simp [encodeEntry, appendString]
        have hlen : e.length + 1 ≤ (encodeEntry (key, e)).length := by
          simp [encodeEntry]
        rw [List.map_cons] at hf ⊢
        have hle := joinComma_length_cons (encodeEntry (key, e)) (es1.map encodeEntry)
        cases ms1 with
        | nil =>
          simp only [marshalEntries, Except.ok.injEq] at hvs; subst hvs
          simp only [List.map_nil, joinComma] at hf ⊢
          have h1 := parseValue_marshal v e hv hpv k (125 :: tail) (by omega)
            (endsNumber_cons 125 tail (by simp))
          rw [hhead, parseMembers]
          simp [skipSpace, isSpace, parseString_appendString key _ hkey, h1]
        | cons kv2 ms2 =>
          have hne2 : es1 ≠ [] := by
            intro h; subst h
            obtain ⟨k2, v2⟩ := kv2
            rw [marshalEntries] at hvs
            cases h2 : marshal true v2 with
            | error e2 => rw [h2] at hvs; cases hvs
            | ok e2 =>
              rw [h2] at hvs
              cases h3 : marshalEntries true ms2 with
              | error e3 => rw [h3] at hvs; cases hvs
              | ok e3 => rw [h3] at hvs; cases hvs
          obtain ⟨y, rest, rfl⟩ := List.exists_cons_of_ne_nil hne2
          rw [List.map_cons, joinComma_cons_cons] at hf ⊢
          have hf2 : (encodeEntry (key, e)).length +
              (joinComma (encodeEntry y :: rest.map encodeEntry)).length + 2 ≤ k + 1 := by
            simp only [List.length_append, List.length_cons] at hf
            omega
          have h1 := parseValue_marshal v e hv hpv k
            (44 :: (joinComma (encodeEntry y :: rest.map encodeEntry) ++ 125 :: tail))
            (by omega) (endsNumber_cons 44 _ (by simp))
          have h2 := parseMembers_marshalEntries (kv2 :: ms2) (y :: rest) hvs hprest
            (by simp) k tail (by rw [List.map_cons]; omega)
          rw [List.map_cons] at h2
          rw [List.append_assoc, hhead, parseMembers]
          simp [skipSpace, isSpace, parseString_appendString key _ hkey, h1, h2]
end

mutual
theorem marshal_ok_of_plain (esc : Bool) :
    ∀ v : Value, v.plain = true → ∃ b, marshal esc v = .ok b
  | .null, _ => ⟨_, rfl⟩
  | .bool _, _ => ⟨_, rfl⟩
  | .int _, _ => ⟨_, rfl⟩
  | .string _, _ => ⟨_, rfl⟩
  | .unsupported, h => by simp [Value.plain] at h
  | .array xs, h => by
    rw [Value.plain] at h
    obtain ⟨es, he⟩ := marshalElems_ok_of_plain esc xs h
    exact ⟨_, by rw [marshal, he]⟩
  | .object ms, h => by
    rw [Value.plain, Bool.and_eq_true] at h
    obtain ⟨es, he⟩ := marshalEntries_ok_of_plain esc ms h.2
    exact ⟨_, by rw [marshal, he]⟩
theorem marshalElems_ok_of_plain (esc : Bool) :
    ∀ xs : List Value, Value.allPlain xs = true → ∃ es, marshalElems esc xs = .ok es
  | [], _ => ⟨_, rfl⟩
  | v :: vs, h => by
    rw [Value.allPlain, Bool.and_eq_true] at h
    obtain ⟨b, hb⟩ := marshal_ok_of_plain esc v h.1
    obtain ⟨bs, hbs⟩ := marshalElems_ok_of_plain esc vs h.2
    exact ⟨_, by rw [marshalElems, hb, hbs]⟩
theorem marshalEntries_ok_of_plain (esc : Bool) :
    ∀ ms : List (GoString × Value), Value.allEntriesPlain ms = true →
      ∃ es, marshalEntries esc ms = .ok es
  | [], _ => ⟨_, rfl⟩
  | (k, v) :: ms, h => by
    rw [Value.allEntriesPlain, Bool.and_eq_true, Bool.and_eq_true] at h
    obtain ⟨b, hb⟩ := marshal_ok_of_plain esc v h.1.2
    obtain ⟨bs, hbs⟩ := marshalEntries_ok_of_plain esc ms h.2
    exact ⟨_, by rw [marshalEntries, hb, hbs]⟩
end

/-- A string that is not valid UTF-8 can be encoded but does not come back: the byte
`0xFF` is written as the escape of U+FFFD and read back as the three bytes of U+FFFD.
The claim C2 fails as stated. -/
theorem invalid_utf8_string_comes_back_changed :
    marshal true (.string [255]) = .ok (lit "\"\\ufffd\"") ∧
    parseJSON (encodeResponseAsJSON (.string [255]) Sink.empty).2.contents =
      some (.string [239, 191, 189]) ∧
    Value.string [239, 191, 189] ≠ Value.string [255] := by
  refine ⟨rfl, rfl, ?_⟩
  intro h
  injection h with h
  exact absurd h (by decide)

/-- C2 (amended): for every payload made of null, booleans, integers, strings that are
valid UTF-8, slices, and maps with valid UTF-8 keys whose entries are listed in key
order, parsing the bytes that `encodeResponseAsJSON` writes to an empty sink gives back
the payload. -/
theorem plain_payload_round_trips (data : Value) (h : data.plain = true) :
    parseJSON (encodeResponseAsJSON data Sink.empty).2.contents = some data := by
  obtain ⟨b, hb⟩ := marshal_ok_of_plain true data h
  rw [encodeResponseAsJSON_ok data b Sink.empty hb]
  have hc : (Writer.Write Sink.empty (b ++ [10])).1.contents = b ++ [10] := by
    simp [Writer.Write, Sink.Write, Sink.empty]
  rw [hc]
  unfold parseJSON
  rw [parseValue_marshal data b hb h _ [10] (by simp only [List.length_append]; omega)
    (endsNumber_cons 10 [] (by simp))]
  rfl

theorem plain_payload_round_trips_witness :
    parseJSON (encodeResponseAsJSON samplePayload Sink.empty).2.contents =
      some samplePayload :=
  plain_payload_round_trips samplePayload (by decide)

end GoCore
